import Mathlib

set_option maxHeartbeats 1000000

/-!
Verification development for the query-plan optimization drivers of
`src/Processors/QueryPlan/Optimizations/optimizeTree.cpp`.

The plan tree is embedded as a mutually inductive tree/forest.  The
explicit-stack drivers (`optimizeTreeFirstPass`, `optimizeTreeSecondPass`)
are embedded as fuel-indexed small-step loops over an explicit stack of
frames.  A frame stores its node by value; a pop writes the (possibly
mutated) subtree back into the parent's child slot, which models the C++
in-place pointer mutation: a rule only ever mutates the subtree rooted at
the frame's node, never its ancestors.
-/

namespace QPOpt

/-- One relational operator step.  The drivers in `optimizeTree.cpp` only
inspect steps through two `typeid_cast`s (`ReadFromMergeTree` and
`ReadFromLocalParallelReplicaStep`); everything else is opaque payload,
carried here as a numeric identity. -/
inductive PStep where
  | readFromMergeTree (id : Nat)
  | readFromLocalReplica (id : Nat)
  | other (id : Nat)
deriving DecidableEq

mutual
/-- A plan-tree node: one step plus an ordered forest of children
(`QueryPlan::Node`). -/
inductive PTree where
  | node (step : PStep) (children : PForest)

/-- An ordered list of child nodes. -/
inductive PForest where
  | fnil
  | fcons (t : PTree) (ts : PForest)
end

def PTree.step : PTree → PStep
  | .node s _ => s

def PTree.children : PTree → PForest
  | .node _ cs => cs

def PForest.length : PForest → Nat
  | .fnil => 0
  | .fcons _ ts => ts.length + 1

/-- Child at an index (a dummy leaf out of range; the drivers only read
in-range indices). -/
def PForest.getD : PForest → Nat → PTree
  | .fnil, _ => .node (.other 0) .fnil
  | .fcons t _, 0 => t
  | .fcons _ ts, n + 1 => ts.getD n

/-- Replace the child at an index (identity out of range). -/
def PForest.set : PForest → Nat → PTree → PForest
  | .fnil, _, _ => .fnil
  | .fcons _ ts, 0, u => .fcons u ts
  | .fcons t ts, n + 1, u => .fcons t (ts.set n u)

def PForest.drop : PForest → Nat → PForest
  | ts, 0 => ts
  | .fnil, _ + 1 => .fnil
  | .fcons _ ts, n + 1 => ts.drop n

mutual
def PTree.size : PTree → Nat
  | .node _ cs => cs.size + 1

def PForest.size : PForest → Nat
  | .fnil => 0
  | .fcons t ts => t.size + ts.size
end

/-- The slice of `QueryPlanOptimizationSettings` read by
`optimizeTreeFirstPass` itself.  The `ExtraSettings` fields
(vector-search limits and the like) are only forwarded verbatim to each
rule's `apply`, so they are absorbed into the rule functions. -/
structure FPSettings where
  optimize_plan : Bool
  max_optimizations_to_apply : Nat
  is_explain : Bool

/-- One entry of the first-pass registry (`getOptimizations()`).
`is_enabled` is the value of the settings member the descriptor points at;
`apply` is `none` when the descriptor's function pointer is null (the
"not initialized" guard in the source). A rule receives the subtree rooted
at the frame's node and returns the mutated subtree together with its
reported update depth. -/
structure Optimization where
  is_enabled : Bool
  apply : Option (PTree → PTree × Nat)

/-- Outcome of the inner `for (const auto & optimization : optimizations)`
loop of `optimizeTreeFirstPass` at one node visit. -/
inductive ApplyOutcome where
  | ok (sub : PTree) (total : Nat) (maxDepth : Nat)
  | explainReturn (sub : PTree) (total : Nat)
  | budgetError

/-- The inner rule loop (source lines 82–107): for each enabled,
initialized rule, first the budget check (`max != 0 && max < total`,
returning early in explain mode, throwing otherwise), then the
application, counting it if its update depth is nonzero and folding the
maximum reported depth. -/
def applyOptimizations (s : FPSettings) :
    List Optimization → PTree → Nat → Nat → ApplyOutcome
  | [], sub, total, maxd => .ok sub total maxd
  | o :: rest, sub, total, maxd =>
    if o.is_enabled = false then
      applyOptimizations s rest sub total maxd
    else
      match o.apply with
      | none => applyOptimizations s rest sub total maxd
      | some f =>
        if s.max_optimizations_to_apply ≠ 0 ∧
            s.max_optimizations_to_apply < total then
          if s.is_explain then .explainReturn sub total else .budgetError
        else
          let r := f sub
          applyOptimizations s rest r.1
            (if r.2 ≠ 0 then total + 1 else total) (Nat.max maxd r.2)

/-- A first-pass traversal frame: the node (held by value, written back to
the parent slot on pop), the remaining forced-re-traversal depth limit and
the next-child cursor. -/
structure Frame where
  node : PTree
  depth_limit : Nat := 0
  next_child : Nat := 0

/-- First-pass loop state.  `visited` is ghost instrumentation: the path
(root-to-node child indices) of every node at the moment its rule loop
runs. -/
structure FPState where
  stack : List Frame
  total : Nat
  visited : List (List Nat)

/-- Path of the top frame's node, reconstructed from the cursors of the
frames below it (each parent's cursor is one past the child being
visited). -/
def stackPath (st : List Frame) : List Nat :=
  (st.drop 1).reverse.map (fun f => f.next_child - 1)

/-- Write a popped subtree back into its parent frame's current child
slot. -/
def writeChild (p : Frame) (t : PTree) : Frame :=
  { p with node := .node p.node.step (p.node.children.set (p.next_child - 1) t) }

/-- Reassemble the whole tree from a frame stack (top first). -/
def collapse : List Frame → PTree
  | [] => .node (.other 0) .fnil
  | [f] => f.node
  | f :: p :: rest => collapse (writeChild p f.node :: rest)
termination_by st => st.length

/-- Result of the first pass: normal completion (stack emptied), the early
`return` taken in explain mode when the budget trips, or the
`TOO_MANY_QUERY_PLAN_OPTIMIZATIONS` exception. -/
inductive FPResult where
  | finished (tree : PTree) (total : Nat)
  | explainStopped (tree : PTree) (total : Nat)
  | tooMany

/-- One step of a fuel-indexed loop. -/
inductive LoopRes (σ ρ : Type) where
  | cont (s : σ)
  | done (r : ρ)

/-- Run a small-step loop for at most `fuel` iterations (`none` = fuel
exhausted before the loop finished). -/
def runLoop {σ ρ : Type} (f : σ → LoopRes σ ρ) : Nat → σ → Option ρ
  | 0, _ => none
  | n + 1, s =>
    match f s with
    | .cont s' => runLoop f n s'
    | .done r => some r

/-- One iteration of the `while (!stack.empty())` loop of
`optimizeTreeFirstPass` (source lines 57–119): if the top frame's depth
limit is not exactly 1 and it has an unvisited child, push that child
(depth limit decremented when nonzero); otherwise run the rule loop, then
either stop early (explain return / budget throw), re-descend with the
frame's depth limit set to the maximal reported update depth and its
cursor reset, or pop the stable node. -/
def fpStep (s : FPSettings) (opts : List Optimization) :
    FPState → LoopRes FPState (FPResult × List (List Nat))
  | ⟨[], total, vis⟩ => .done (.finished (.node (.other 0) .fnil) total, vis)
  | ⟨f :: rest, total, vis⟩ =>
    if f.depth_limit ≠ 1 ∧ f.next_child < f.node.children.length then
      .cont ⟨{ node := f.node.children.getD f.next_child,
               depth_limit := if f.depth_limit = 0 then 0 else f.depth_limit - 1,
               next_child := 0 } ::
             { f with next_child := f.next_child + 1 } :: rest,
             total, vis⟩
    else
      let vis' := vis ++ [stackPath (f :: rest)]
      match applyOptimizations s opts f.node total 0 with
      | .explainReturn sub' total' =>
        .done (.explainStopped (collapse ({ f with node := sub' } :: rest)) total', vis')
      | .budgetError => .done (.tooMany, vis')
      | .ok sub' total' maxd =>
        if maxd ≠ 0 then
          .cont ⟨{ node := sub', depth_limit := maxd, next_child := 0 } :: rest,
                 total', vis'⟩
        else
          match rest with
          | [] => .done (.finished sub' total', vis')
          | p :: rs => .cont ⟨writeChild p sub' :: rs, total', vis'⟩

/-- Initial state: the stack seeded with the root at unlimited depth. -/
def initState (t : PTree) : FPState := ⟨[{ node := t }], 0, []⟩

def runFP (s : FPSettings) (opts : List Optimization) (fuel : Nat) (t : PTree) :
    Option (FPResult × List (List Nat)) :=
  runLoop (fpStep s opts) fuel (initState t)

/-- `optimizeTreeFirstPass`: the `optimize_plan` master switch short
circuits before the registry is even fetched; otherwise the stack loop
runs. -/
def optimizeTreeFirstPass (s : FPSettings) (opts : List Optimization)
    (fuel : Nat) (t : PTree) : Option (FPResult × List (List Nat)) :=
  if s.optimize_plan = false then some (.finished t 0, []) else runFP s opts fuel t

/-- Sanity run: an empty registry walks a three-node tree post-order. -/
theorem runFP_empty_registry_run :
    runFP ⟨true, 0, false⟩ [] 10
        (.node (.other 1) (.fcons (.node (.other 2) .fnil)
                           (.fcons (.node (.other 3) .fnil) .fnil)))
      = some (.finished
          (.node (.other 1) (.fcons (.node (.other 2) .fnil)
                             (.fcons (.node (.other 3) .fnil) .fnil))) 0,
          [[0], [1], []]) := rfl

@[simp] theorem step_node (st : PStep) (cs : PForest) :
    (PTree.node st cs).step = st := rfl

@[simp] theorem children_node (st : PStep) (cs : PForest) :
    (PTree.node st cs).children = cs := rfl

def PForest.get? : PForest → Nat → Option PTree
  | .fnil, _ => none
  | .fcons t _, 0 => some t
  | .fcons _ ts, n + 1 => ts.get? n

/-- Validity of a root-to-node path of child indices. -/
def PTree.isPath : PTree → List Nat → Bool
  | _, [] => true
  | .node _ cs, i :: p =>
    match cs.get? i with
    | none => false
    | some c => c.isPath p

mutual
/-- The paths of all nodes of a subtree sitting at `base`, in post order
(children before their parent). -/
def postorderPathsT (base : List Nat) : PTree → List (List Nat)
  | .node _ cs => postorderPathsF base 0 cs ++ [base]

/-- The paths of all nodes of the children `i, i+1, …` of a node at
`base`, in post order. -/
def postorderPathsF (base : List Nat) (i : Nat) : PForest → List (List Nat)
  | .fnil => []
  | .fcons t ts => postorderPathsT (base ++ [i]) t ++ postorderPathsF base (i + 1) ts
end

def postorderPaths (t : PTree) : List (List Nat) := postorderPathsT [] t

mutual
/-- Exact number of loop iterations a stable (no-report) first-pass
traversal spends on a subtree: one push per child, plus the node's own
processing iteration. -/
def itersT : PTree → Nat
  | .node _ cs => itersF cs + 1

def itersF : PForest → Nat
  | .fnil => 0
  | .fcons t ts => 1 + itersT t + itersF ts
end

theorem runLoop_cont {σ ρ : Type} (f : σ → LoopRes σ ρ) (n : Nat) (s s' : σ)
    (h : f s = .cont s') : runLoop f (n + 1) s = runLoop f n s' := by
  simp [runLoop, h]

theorem runLoop_done {σ ρ : Type} (f : σ → LoopRes σ ρ) (n : Nat) (s : σ) (r : ρ)
    (h : f s = .done r) : runLoop f (n + 1) s = some r := by
  simp [runLoop, h]

/-- The path prefix contributed by the frames below the top of the stack. -/
def basePath (rest : List Frame) : List Nat :=
  rest.reverse.map (fun f => f.next_child - 1)

theorem stackPath_eq (f : Frame) (rest : List Frame) :
    stackPath (f :: rest) = basePath rest := rfl

theorem basePath_cons (p : Frame) (rest : List Frame) :
    basePath (p :: rest) = basePath rest ++ [p.next_child - 1] := by
  simp [basePath]

theorem drop_zero (cs : PForest) : cs.drop 0 = cs := by
  cases cs <;> rfl

theorem drop_fcons :
    ∀ (cs : PForest) (i : Nat) (c : PTree) (ts : PForest), cs.drop i = .fcons c ts →
      cs.getD i = c ∧ i < cs.length ∧ cs.set i c = cs ∧ cs.drop (i + 1) = ts
  | .fnil, i, c, ts => by
    intro h
    exfalso
    cases i <;> simp [PForest.drop] at h
  | .fcons a as, 0, c, ts => by
    intro h
    rw [drop_zero] at h
    cases h
    refine ⟨rfl, ?_, rfl, ?_⟩
    · simp [PForest.length]
    · show as.drop 0 = as
      exact drop_zero as
  | .fcons a as, n + 1, c, ts => by
    intro h
    have h' : as.drop n = .fcons c ts := h
    obtain ⟨h1, h2, h3, h4⟩ := drop_fcons as n c ts h'
    refine ⟨h1, ?_, ?_, h4⟩
    · simp [PForest.length]
      omega
    · simp [PForest.set, h3]

theorem drop_fnil_length :
    ∀ (cs : PForest) (i : Nat), cs.drop i = .fnil → cs.length ≤ i
  | .fnil, i => by
    intro _
    exact Nat.zero_le i
  | .fcons a as, 0 => by
    intro h
    rw [drop_zero] at h
    exact absurd h (by simp)
  | .fcons a as, n + 1 => by
    intro h
    have := drop_fnil_length as n h
    simp [PForest.length]
    omega

mutual
/-- A stable first-pass traversal (rule loop a no-op at every node) walks
the subtree of a non-root frame in exactly `itersT t` iterations, records
its nodes' paths in post order and writes the unchanged subtree back into
the parent frame. -/
theorem inertTreeRun (s : FPSettings) (opts : List Optimization)
    (H : ∀ sub, applyOptimizations s opts sub 0 0 = .ok sub 0 0) :
    ∀ (t : PTree) (p : Frame) (rs : List Frame) (vis : List (List Nat)) (k : Nat),
      runLoop (fpStep s opts) (itersT t + k) ⟨⟨t, 0, 0⟩ :: p :: rs, 0, vis⟩ =
        runLoop (fpStep s opts) k
          ⟨writeChild p t :: rs, 0, vis ++ postorderPathsT (basePath (p :: rs)) t⟩
  | .node st cs, p, rs, vis, k => by
    have hfuel : itersT (.node st cs) + k = itersF cs + (k + 1) := by
      simp [itersT]; omega
    rw [hfuel]
    rw [inertForestRun s opts H cs st cs 0 (p :: rs) vis (k + 1) (drop_zero cs) (Nat.zero_le _)]
    have hstep : fpStep s opts
        ⟨⟨.node st cs, 0, cs.length⟩ :: p :: rs, 0,
         vis ++ postorderPathsF (basePath (p :: rs)) 0 cs⟩ =
        .cont ⟨writeChild p (.node st cs) :: rs, 0,
          (vis ++ postorderPathsF (basePath (p :: rs)) 0 cs) ++ [basePath (p :: rs)]⟩ := by
      simp only [fpStep]
      rw [if_neg (by intro h; exact absurd h.2 (by simp))]
      simp only [H (.node st cs), stackPath_eq]
      simp
    rw [runLoop_cont _ _ _ _ hstep]
    simp [postorderPathsT, List.append_assoc]

/-- A stable first-pass traversal runs the remaining children `i, i+1, …`
of the top frame's node, advancing its cursor to the end and recording
their subtrees' paths in post order. -/
theorem inertForestRun (s : FPSettings) (opts : List Optimization)
    (H : ∀ sub, applyOptimizations s opts sub 0 0 = .ok sub 0 0) :
    ∀ (rem : PForest) (st : PStep) (cs : PForest) (i : Nat) (rest : List Frame)
      (vis : List (List Nat)) (k : Nat),
      cs.drop i = rem → i ≤ cs.length →
      runLoop (fpStep s opts) (itersF rem + k) ⟨⟨.node st cs, 0, i⟩ :: rest, 0, vis⟩ =
        runLoop (fpStep s opts) k
          ⟨⟨.node st cs, 0, cs.length⟩ :: rest, 0,
           vis ++ postorderPathsF (basePath rest) i rem⟩
  | .fnil, st, cs, i, rest, vis, k => by
    intro hdrop hle
    have hlen : i = cs.length := Nat.le_antisymm (drop_fnil_length cs i hdrop) hle |>.symm
    subst hlen
    simp [itersF, postorderPathsF]
  | .fcons c ts, st, cs, i, rest, vis, k => by
    intro hdrop hle
    obtain ⟨hget, hlt, hset, hdrop'⟩ := drop_fcons cs i c ts hdrop
    have hfuel : itersF (.fcons c ts) + k = (itersT c + (itersF ts + k)) + 1 := by
      simp [itersF]; omega
    rw [hfuel]
    have hstep : fpStep s opts ⟨⟨.node st cs, 0, i⟩ :: rest, 0, vis⟩ =
        .cont ⟨⟨c, 0, 0⟩ :: ⟨.node st cs, 0, i + 1⟩ :: rest, 0, vis⟩ := by
      simp only [fpStep]
      rw [if_pos ⟨by decide, by simpa using hlt⟩]
      simp [hget]
    rw [runLoop_cont _ _ _ _ hstep]
    rw [inertTreeRun s opts H c ⟨.node st cs, 0, i + 1⟩ rest vis (itersF ts + k)]
    have hwc : writeChild ⟨.node st cs, 0, i + 1⟩ c = ⟨.node st cs, 0, i + 1⟩ := by
      simp [writeChild, hset]
    rw [hwc]
    have hbase : basePath (Frame.mk (.node st cs) 0 (i + 1) :: rest) =
        basePath rest ++ [i] := by
      rw [basePath_cons]; simp
    rw [hbase]
    rw [inertForestRun s opts H ts st cs (i + 1) rest
      (vis ++ postorderPathsT (basePath rest ++ [i]) c) k hdrop' hlt]
    simp [postorderPathsF, List.append_assoc]
end

/-- A stable first-pass traversal of the root frame finishes, leaves the
tree unchanged and records exactly the post-order path list. -/
theorem inertRootRun (s : FPSettings) (opts : List Optimization)
    (H : ∀ sub, applyOptimizations s opts sub 0 0 = .ok sub 0 0)
    (t : PTree) (vis : List (List Nat)) (k : Nat) :
    runLoop (fpStep s opts) (itersT t + k) ⟨[⟨t, 0, 0⟩], 0, vis⟩ =
      some (.finished t 0, vis ++ postorderPathsT [] t) := by
  cases t with
  | node st cs =>
    have hfuel : itersT (.node st cs) + k = itersF cs + (k + 1) := by
      simp [itersT]; omega
    rw [hfuel]
    rw [inertForestRun s opts H cs st cs 0 [] vis (k + 1) (drop_zero cs) (Nat.zero_le _)]
    have hstep : fpStep s opts
        ⟨[⟨.node st cs, 0, cs.length⟩], 0, vis ++ postorderPathsF (basePath []) 0 cs⟩ =
        .done (.finished (.node st cs) 0,
          (vis ++ postorderPathsF (basePath []) 0 cs) ++ [basePath []]) := by
      simp only [fpStep]
      rw [if_neg (by intro h; exact absurd h.2 (by simp))]
      simp only [H (.node st cs), stackPath_eq]
      simp
    rw [runLoop_done _ _ _ _ hstep]
    simp [postorderPathsT, basePath, List.append_assoc]

/-- A stable first pass from the initial state. -/
theorem inert_firstPass (s : FPSettings) (opts : List Optimization)
    (H : ∀ sub, applyOptimizations s opts sub 0 0 = .ok sub 0 0)
    (t : PTree) (k : Nat) :
    runFP s opts (itersT t + k) t = some (.finished t 0, postorderPaths t) := by
  unfold runFP initState
  rw [inertRootRun s opts H t [] k]
  simp [postorderPaths]

theorem applyOptimizations_nil (s : FPSettings) (sub : PTree) (total maxd : Nat) :
    applyOptimizations s [] sub total maxd = .ok sub total maxd := rfl

theorem applyOptimizations_cons_disabled (s : FPSettings) (o : Optimization)
    (rest : List Optimization) (sub : PTree) (total maxd : Nat)
    (he : o.is_enabled = false) :
    applyOptimizations s (o :: rest) sub total maxd =
      applyOptimizations s rest sub total maxd := by
  simp only [applyOptimizations]
  rw [if_pos he]

theorem applyOptimizations_cons_none (s : FPSettings) (o : Optimization)
    (rest : List Optimization) (sub : PTree) (total maxd : Nat)
    (he : o.is_enabled = true) (ha : o.apply = none) :
    applyOptimizations s (o :: rest) sub total maxd =
      applyOptimizations s rest sub total maxd := by
  simp only [applyOptimizations, ha]
  rw [if_neg (by simp [he])]

theorem applyOptimizations_cons_some (s : FPSettings) (o : Optimization)
    (rest : List Optimization) (sub : PTree) (total maxd : Nat)
    (f : PTree → PTree × Nat) (he : o.is_enabled = true) (ha : o.apply = some f) :
    applyOptimizations s (o :: rest) sub total maxd =
      if s.max_optimizations_to_apply ≠ 0 ∧
          s.max_optimizations_to_apply < total then
        (if s.is_explain then .explainReturn sub total else .budgetError)
      else
        applyOptimizations s rest (f sub).1
          (if (f sub).2 ≠ 0 then total + 1 else total) (Nat.max maxd (f sub).2) := by
  simp only [applyOptimizations, ha]
  rw [if_neg (by simp [he])]

theorem allDisabled_applyOptimizations (s : FPSettings) :
    ∀ (opts : List Optimization), (∀ o ∈ opts, o.is_enabled = false) →
      ∀ sub total maxd, applyOptimizations s opts sub total maxd = .ok sub total maxd := by
  intro opts
  induction opts with
  | nil => intro _ sub total maxd; rfl
  | cons o rest ih =>
    intro h sub total maxd
    unfold applyOptimizations
    rw [if_pos (h o (List.mem_cons_self o rest))]
    exact ih (fun o' ho' => h o' (List.mem_cons_of_mem o ho')) sub total maxd

theorem stable_applyOptimizations (s : FPSettings) :
    ∀ (opts : List Optimization),
      (∀ o ∈ opts, o.is_enabled = true → ∀ f, o.apply = some f → ∀ u, f u = (u, 0)) →
      ∀ sub maxd, applyOptimizations s opts sub 0 maxd = .ok sub 0 maxd := by
  intro opts
  induction opts with
  | nil => intro _ sub maxd; rfl
  | cons o rest ih =>
    intro h sub maxd
    have ihr := ih (fun o' ho' => h o' (List.mem_cons_of_mem o ho'))
    by_cases hoe : o.is_enabled = false
    · rw [applyOptimizations_cons_disabled s o rest sub 0 maxd hoe]
      exact ihr sub maxd
    · have he : o.is_enabled = true := by revert hoe; cases o.is_enabled <;> simp
      match ha : o.apply with
      | none =>
        rw [applyOptimizations_cons_none s o rest sub 0 maxd he ha]
        exact ihr sub maxd
      | some f =>
        rw [applyOptimizations_cons_some s o rest sub 0 maxd f he ha]
        rw [if_neg (show ¬(s.max_optimizations_to_apply ≠ 0 ∧
              s.max_optimizations_to_apply < 0) from fun hb => Nat.not_lt_zero _ hb.2)]
        have hf : f sub = (sub, 0) := h o (List.mem_cons_self o rest) he f ha sub
        rw [hf]
        simpa using ihr sub maxd

/-- C7: running the first pass with an all-disabled (in particular empty)
registry returns the very same tree — node count, child order and step
identities unchanged — applying nothing, and visiting each node once in
post order. -/
theorem C7_disabled_registry_identity (s : FPSettings) (opts : List Optimization)
    (hdis : ∀ o ∈ opts, o.is_enabled = false) (hplan : s.optimize_plan = true)
    (t : PTree) (k : Nat) :
    optimizeTreeFirstPass s opts (itersT t + k) t =
      some (.finished t 0, postorderPaths t) := by
  unfold optimizeTreeFirstPass
  rw [hplan]
  simp only [Bool.true_eq_false, if_false]
  exact inert_firstPass s opts
    (fun sub => allDisabled_applyOptimizations s opts hdis sub 0 0) t k

/-- Witness for C7: a root with two children, one disabled rule that would
rewrite everything if it ran; the pass returns the identical tree with
zero applications. -/
theorem C7_disabled_registry_identity_witness :
    optimizeTreeFirstPass ⟨true, 0, false⟩
        [⟨false, some (fun _ => (.node (.other 99) .fnil, 5))⟩] 5
        (.node (.other 1) (.fcons (.node (.other 2) .fnil)
                           (.fcons (.node (.other 3) .fnil) .fnil)))
      = some (.finished
          (.node (.other 1) (.fcons (.node (.other 2) .fnil)
                             (.fcons (.node (.other 3) .fnil) .fnil))) 0,
          [[0], [1], []]) := by
  have h := C7_disabled_registry_identity ⟨true, 0, false⟩
    [⟨false, some (fun _ => (.node (.other 99) .fnil, 5))⟩]
    (by intro o ho; simp at ho; rw [ho]) rfl
    (.node (.other 1) (.fcons (.node (.other 2) .fnil)
                       (.fcons (.node (.other 3) .fnil) .fnil))) 0
  simpa [itersT, itersF, postorderPaths, postorderPathsT, postorderPathsF] using h

theorem append_cons_inj (base : List Nat) (j1 j2 : Nat) (q1 q2 : List Nat)
    (h : base ++ j1 :: q1 = base ++ j2 :: q2) : j1 = j2 ∧ q1 = q2 := by
  have h2 := congrArg (List.drop base.length) h
  simpa using h2

mutual
/-- Every recorded path of a subtree at `base` extends `base`. -/
theorem shapeT : ∀ (t : PTree) (base p : List Nat),
    p ∈ postorderPathsT base t → ∃ q, p = base ++ q
  | .node st cs, base, p => by
    intro hp
    simp only [postorderPathsT, List.mem_append] at hp
    rcases hp with hp | hp
    · obtain ⟨j, q, _, hpe⟩ := shapeF cs base 0 p hp
      exact ⟨j :: q, hpe⟩
    · simp only [List.mem_singleton] at hp
      exact ⟨[], by simp [hp]⟩

/-- Every recorded path of the children `i, i+1, …` extends `base` by a
child index at least `i`. -/
theorem shapeF : ∀ (cs : PForest) (base : List Nat) (i : Nat) (p : List Nat),
    p ∈ postorderPathsF base i cs → ∃ j q, i ≤ j ∧ p = base ++ j :: q
  | .fnil, base, i, p => by
    intro hp
    simp [postorderPathsF] at hp
  | .fcons c ts, base, i, p => by
    intro hp
    simp only [postorderPathsF, List.mem_append] at hp
    rcases hp with hp | hp
    · obtain ⟨q, hpe⟩ := shapeT c (base ++ [i]) p hp
      exact ⟨i, q, Nat.le_refl i, by simpa [List.append_assoc] using hpe⟩
    · obtain ⟨j, q, hj, hpe⟩ := shapeF ts base (i + 1) p hp
      exact ⟨j, q, by omega, hpe⟩
end

theorem match_count_eq (o : Option PTree) (q' : List Nat) :
    (match o with
     | some c => (if c.isPath q' then 1 else 0)
     | none => 0) =
      if (match o with
          | none => false
          | some c => c.isPath q') = true then 1 else 0 := by
  cases o <;> simp

mutual
/-- The post-order path list of a subtree contains the path of each valid
node exactly once. -/
theorem countT : ∀ (t : PTree) (base q : List Nat),
    (postorderPathsT base t).count (base ++ q) = if t.isPath q then 1 else 0
  | .node st cs, base, q => by
    simp only [postorderPathsT]
    rw [List.count_append]
    cases q with
    | nil =>
      have h1 : (postorderPathsF base 0 cs).count (base ++ []) = 0 := by
        rw [List.count_eq_zero]
        intro hmem
        obtain ⟨j, q0, _, heq⟩ := shapeF cs base 0 (base ++ []) hmem
        rw [List.append_nil] at heq
        have := congrArg List.length heq
        simp at this
      rw [h1]
      simp [PTree.isPath]
    | cons j q' =>
      have h2 : (([base] : List (List Nat))).count (base ++ j :: q') = 0 := by
        rw [List.count_eq_zero]
        intro hmem
        simp only [List.mem_singleton] at hmem
        have := congrArg List.length hmem
        simp at this
      rw [h2]
      have h3 := countF cs base 0 j q'
      rw [Nat.zero_add] at h3
      rw [h3]
      simp only [PTree.isPath, Nat.add_zero]
      exact match_count_eq (cs.get? j) q'

/-- The post-order path list of children `i, i+1, …` counts the path
`base ++ (i+j) :: q'` once exactly when child `j` of the remainder admits
the path `q'`. -/
theorem countF : ∀ (rem : PForest) (base : List Nat) (i j : Nat) (q' : List Nat),
    (postorderPathsF base i rem).count (base ++ (i + j) :: q') =
      (match rem.get? j with
       | some c => (if c.isPath q' then 1 else 0)
       | none => 0)
  | .fnil, base, i, j, q' => by
    simp [postorderPathsF, PForest.get?]
  | .fcons c ts, base, i, j, q' => by
    simp only [postorderPathsF]
    rw [List.count_append]
    cases j with
    | zero =>
      have h1 : (postorderPathsT (base ++ [i]) c).count (base ++ (i + 0) :: q') =
          if c.isPath q' then 1 else 0 := by
        have := countT c (base ++ [i]) q'
        simpa [List.append_assoc] using this
      have h2 : (postorderPathsF base (i + 1) ts).count (base ++ (i + 0) :: q') = 0 := by
        rw [List.count_eq_zero]
        intro hmem
        obtain ⟨jj, qq, hjj, heq⟩ := shapeF ts base (i + 1) _ hmem
        obtain ⟨hje, -⟩ := append_cons_inj base (i + 0) jj q' qq heq
        omega
      rw [h1, h2]
      simp [PForest.get?]
    | succ j0 =>
      have h1 : (postorderPathsT (base ++ [i]) c).count (base ++ (i + (j0 + 1)) :: q') = 0 := by
        rw [List.count_eq_zero]
        intro hmem
        obtain ⟨qq, heq⟩ := shapeT c (base ++ [i]) _ hmem
        rw [List.append_assoc] at heq
        simp only [List.singleton_append] at heq
        obtain ⟨hje, -⟩ := append_cons_inj base (i + (j0 + 1)) i q' qq heq
        omega
      have h2 : (postorderPathsF base (i + 1) ts).count (base ++ (i + (j0 + 1)) :: q') =
          (match ts.get? j0 with
           | some c => (if c.isPath q' then 1 else 0)
           | none => 0) := by
        have := countF ts base (i + 1) j0 q'
        have harith : i + 1 + j0 = i + (j0 + 1) := by omega
        rwa [harith] at this
      rw [h1, h2]
      simp [PForest.get?]
end

mutual
/-- Post order lists children strictly before their ancestors: no later
entry extends an earlier one (in particular there are no duplicates). -/
theorem pairT : ∀ (t : PTree) (base : List Nat),
    List.Pairwise (fun p q : List Nat => ∀ r, q ≠ p ++ r) (postorderPathsT base t)
  | .node st cs, base => by
    simp only [postorderPathsT]
    rw [List.pairwise_append]
    refine ⟨pairF cs base 0, by simp, ?_⟩
    intro a ha b hb r hbr
    simp only [List.mem_singleton] at hb
    obtain ⟨j, q0, -, hae⟩ := shapeF cs base 0 a ha
    rw [hb, hae] at hbr
    have := congrArg List.length hbr
    simp only [List.length_append, List.length_cons] at this
    omega

theorem pairF : ∀ (cs : PForest) (base : List Nat) (i : Nat),
    List.Pairwise (fun p q : List Nat => ∀ r, q ≠ p ++ r) (postorderPathsF base i cs)
  | .fnil, base, i => by simp [postorderPathsF]
  | .fcons c ts, base, i => by
    simp only [postorderPathsF]
    rw [List.pairwise_append]
    refine ⟨pairT c (base ++ [i]), pairF ts base (i + 1), ?_⟩
    intro a ha b hb r hbr
    obtain ⟨qa, hae⟩ := shapeT c (base ++ [i]) a ha
    obtain ⟨jb, qb, hjb, hbe⟩ := shapeF ts base (i + 1) b hb
    rw [hae, hbe] at hbr
    simp only [List.append_assoc, List.singleton_append] at hbr
    obtain ⟨hje, -⟩ := append_cons_inj base jb i qb (qa ++ r) hbr
    omega
end

/-- C2: in a stable fixpoint pass — every enabled, initialized rule leaves
every subtree unchanged and reports update depth 0 — the first-pass loop
terminates with the tree unchanged and its visit log is exactly the post
order of the tree: every valid node path occurs exactly once, and no entry
is an extension of an earlier one (all children are processed strictly
before their parent). -/
theorem C2_stable_pass_visits_postorder_once (s : FPSettings)
    (opts : List Optimization)
    (hstable : ∀ o ∈ opts, o.is_enabled = true →
      ∀ f, o.apply = some f → ∀ u, f u = (u, 0))
    (t : PTree) (k : Nat) :
    runFP s opts (itersT t + k) t = some (.finished t 0, postorderPaths t) ∧
    (∀ p : List Nat, (postorderPaths t).count p = if t.isPath p then 1 else 0) ∧
    List.Pairwise (fun p q : List Nat => ∀ r, q ≠ p ++ r) (postorderPaths t) := by
  refine ⟨inert_firstPass s opts
      (fun sub => stable_applyOptimizations s opts hstable sub 0) t k, ?_, pairT t []⟩
  intro p
  have := countT t [] p
  simpa [postorderPaths] using this

/-- Witness for C2: one enabled no-op rule over a three-node tree; the
pass finishes with the tree unchanged having visited `[0], [1], []`, and
the path `[]` of the root is counted once. -/
theorem C2_stable_pass_visits_postorder_once_witness :
    (runFP ⟨true, 0, false⟩ [⟨true, some (fun u => (u, 0))⟩] 5
        (.node (.other 1) (.fcons (.node (.other 2) .fnil)
                           (.fcons (.node (.other 3) .fnil) .fnil)))
      = some (.finished
          (.node (.other 1) (.fcons (.node (.other 2) .fnil)
                             (.fcons (.node (.other 3) .fnil) .fnil))) 0,
          [[0], [1], []])) ∧
    (postorderPaths (.node (.other 1) (.fcons (.node (.other 2) .fnil)
        (.fcons (.node (.other 3) .fnil) .fnil)))).count [] = 1 := by
  have h := C2_stable_pass_visits_postorder_once ⟨true, 0, false⟩
    [⟨true, some (fun u => (u, 0))⟩]
    (by
      intro o ho he f hf u
      simp only [List.mem_singleton] at ho
      subst ho
      simp only [Option.some.injEq] at hf
      subst hf
      rfl)
    (.node (.other 1) (.fcons (.node (.other 2) .fnil)
                       (.fcons (.node (.other 3) .fnil) .fnil))) 0
  refine ⟨?_, ?_⟩
  · have h1 := h.1
    simpa [itersT, itersF, postorderPaths, postorderPathsT, postorderPathsF] using h1
  · have h2 := h.2.1 []
    simpa using h2

/-- The sequence of update depths reported by the rules actually run during
one node visit (same fold as `applyOptimizations`, cut short where the
budget check exits the loop). -/
def visitReports (s : FPSettings) :
    List Optimization → PTree → Nat → List Nat
  | [], _, _ => []
  | o :: rest, sub, total =>
    if o.is_enabled = false then visitReports s rest sub total
    else
      match o.apply with
      | none => visitReports s rest sub total
      | some f =>
        if s.max_optimizations_to_apply ≠ 0 ∧
            s.max_optimizations_to_apply < total then []
        else
          let r := f sub
          visitReports s rest r.1 (if r.2 ≠ 0 then total + 1 else total) |>.cons r.2

theorem foldr_max_absorb (l : List Nat) (a b : Nat) :
    l.foldr Nat.max (Nat.max a b) = Nat.max b (l.foldr Nat.max a) := by
  induction l with
  | nil => exact Nat.max_comm a b
  | cons c l ih =>
    simp only [List.foldr_cons, ih]
    exact max_left_comm c b (l.foldr Nat.max a)

/-- When one visit's rule loop completes normally, the resulting depth is
the maximum over all reported update depths (joined with the incoming
accumulator). -/
theorem applyOptimizations_maxDepth (s : FPSettings) :
    ∀ (opts : List Optimization) (sub : PTree) (total maxd : Nat)
      (sub' : PTree) (total' maxd' : Nat),
      applyOptimizations s opts sub total maxd = .ok sub' total' maxd' →
      maxd' = (visitReports s opts sub total).foldr Nat.max maxd := by
  intro opts
  induction opts with
  | nil =>
    intro sub total maxd sub' total' maxd' h
    cases h
    rfl
  | cons o rest ih =>
    intro sub total maxd sub' total' maxd' h
    unfold applyOptimizations at h
    unfold visitReports
    by_cases he : o.is_enabled = false
    · simp only [he, if_pos rfl] at h ⊢
      simpa using ih _ _ _ _ _ _ h
    · rw [if_neg he] at h
      rw [if_neg he]
      match ha : o.apply with
      | none =>
        rw [ha] at h
        exact ih _ _ _ _ _ _ h
      | some f =>
        rw [ha] at h
        dsimp only at h ⊢
        by_cases hb : s.max_optimizations_to_apply ≠ 0 ∧
            s.max_optimizations_to_apply < total
        · rw [if_pos hb] at h
          by_cases hx : s.is_explain <;> simp [hx] at h
        · rw [if_neg hb] at h
          rw [if_neg hb]
          have := ih _ _ _ _ _ _ h
          rw [this]
          simp only [List.foldr_cons]
          exact foldr_max_absorb _ maxd (f sub).2

/-- C6: one first-pass visit.  (1) A frame whose depth limit is not
exactly 1 and with an unvisited child descends, pushing the child with the
depth limit decremented (kept 0, i.e. unlimited, when it was 0) and a
fresh cursor; in particular a frame with depth limit exactly 1 never
descends.  (2) When the node is processed, the depth produced by the rule
loop is the maximum update depth reported by the rules run; if it is
nonzero the frame's depth limit becomes exactly that value and its cursor
is reset to 0 while the rest of the stack is untouched; if it is zero the
frame is popped (writing the subtree back into its parent, or finishing at
the root). -/
theorem C6_visit_max_update_depth (s : FPSettings) (opts : List Optimization)
    (f : Frame) (rest : List Frame) (total : Nat) (vis : List (List Nat)) :
    (f.depth_limit ≠ 1 → f.next_child < f.node.children.length →
      fpStep s opts ⟨f :: rest, total, vis⟩ =
        .cont ⟨⟨f.node.children.getD f.next_child,
                (if f.depth_limit = 0 then 0 else f.depth_limit - 1), 0⟩ ::
               { f with next_child := f.next_child + 1 } :: rest, total, vis⟩) ∧
    (∀ sub' total' maxd,
      (f.depth_limit = 1 ∨ ¬ f.next_child < f.node.children.length) →
      applyOptimizations s opts f.node total 0 = .ok sub' total' maxd →
      maxd = (visitReports s opts f.node total).foldr Nat.max 0 ∧
      (maxd ≠ 0 →
        fpStep s opts ⟨f :: rest, total, vis⟩ =
          .cont ⟨⟨sub', maxd, 0⟩ :: rest, total', vis ++ [stackPath (f :: rest)]⟩) ∧
      (maxd = 0 → rest = [] →
        fpStep s opts ⟨f :: rest, total, vis⟩ =
          .done (.finished sub' total', vis ++ [stackPath (f :: rest)])) ∧
      (maxd = 0 → ∀ p rs, rest = p :: rs →
        fpStep s opts ⟨f :: rest, total, vis⟩ =
          .cont ⟨writeChild p sub' :: rs, total', vis ++ [stackPath (f :: rest)]⟩)) := by
  constructor
  · intro h1 h2
    simp only [fpStep]
    rw [if_pos ⟨h1, h2⟩]
  · intro sub' total' maxd hcond happ
    have hguard : ¬ (f.depth_limit ≠ 1 ∧ f.next_child < f.node.children.length) := by
      rcases hcond with h | h
      · exact fun hc => hc.1 h
      · exact fun hc => h hc.2
    refine ⟨applyOptimizations_maxDepth s opts f.node total 0 sub' total' maxd happ,
      ?_, ?_, ?_⟩
    · intro hmax
      simp only [fpStep]
      rw [if_neg hguard]
      simp only [happ, if_pos hmax]
    · intro hmax hrest
      subst hrest
      simp only [fpStep]
      rw [if_neg hguard]
      simp only [happ, hmax]
      simp
    · intro hmax p rs hrest
      subst hrest
      simp only [fpStep]
      rw [if_neg hguard]
      simp only [happ, hmax]
      simp

/-- Witness for C6 at a concrete frame: a two-child node with depth limit
2 pushes the first child with depth limit 1, and a processing visit whose
single rule reports depth 3 re-descends with depth limit 3. -/
theorem C6_visit_max_update_depth_witness :
    (fpStep ⟨true, 0, false⟩ []
        ⟨[⟨.node (.other 1) (.fcons (.node (.other 2) .fnil) .fnil), 2, 0⟩], 0, []⟩ =
      .cont ⟨[⟨.node (.other 2) .fnil, 1, 0⟩,
              ⟨.node (.other 1) (.fcons (.node (.other 2) .fnil) .fnil), 2, 1⟩], 0, []⟩) ∧
    (fpStep ⟨true, 0, false⟩ [⟨true, some (fun t => (t, 3))⟩]
        ⟨[⟨.node (.other 5) .fnil, 1, 0⟩], 0, []⟩ =
      .cont ⟨[⟨.node (.other 5) .fnil, 3, 0⟩], 1, [[]]⟩) := by
  constructor
  · exact (C6_visit_max_update_depth ⟨true, 0, false⟩ []
      ⟨.node (.other 1) (.fcons (.node (.other 2) .fnil) .fnil), 2, 0⟩ [] 0 []).1
      (by decide) (by decide)
  · exact (((C6_visit_max_update_depth ⟨true, 0, false⟩
      [⟨true, some (fun t => (t, 3))⟩]
      ⟨.node (.other 5) .fnil, 1, 0⟩ [] 0 []).2
      (.node (.other 5) .fnil) 1 3 (Or.inl rfl) rfl).2.1) (by decide)

/-- C10: with `optimize_plan = false` the first pass returns immediately:
the tree is returned unchanged with a zero application counter and an
empty visit log, and the result does not depend on the registry or on the
loop fuel at all — no rule is consulted. -/
theorem C10_first_pass_disabled_is_identity (s : FPSettings)
    (h : s.optimize_plan = false) (t : PTree)
    (opts opts' : List Optimization) (fuel fuel' : Nat) :
    optimizeTreeFirstPass s opts fuel t = some (.finished t 0, []) ∧
    optimizeTreeFirstPass s opts fuel t = optimizeTreeFirstPass s opts' fuel' t := by
  constructor <;> simp [optimizeTreeFirstPass, h]

/-- Witness for C10 at a concrete disabled configuration and a two-node
tree. -/
theorem C10_first_pass_disabled_is_identity_witness :
    (optimizeTreeFirstPass ⟨false, 5, false⟩
        [⟨true, some (fun t => (t, 1))⟩] 100
        (.node (.other 7) (.fcons (.node (.other 8) .fnil) .fnil))
      = some (.finished (.node (.other 7) (.fcons (.node (.other 8) .fnil) .fnil)) 0, [])) ∧
    (optimizeTreeFirstPass ⟨false, 5, false⟩
        [⟨true, some (fun t => (t, 1))⟩] 100
        (.node (.other 7) (.fcons (.node (.other 8) .fnil) .fnil))
      = optimizeTreeFirstPass ⟨false, 5, false⟩ [] 0
        (.node (.other 7) (.fcons (.node (.other 8) .fnil) .fnil))) :=
  C10_first_pass_disabled_is_identity ⟨false, 5, false⟩ rfl
    (.node (.other 7) (.fcons (.node (.other 8) .fnil) .fnil))
    [⟨true, some (fun t => (t, 1))⟩] [] 100 0

/-! ### Branch lemmas for one first-pass iteration -/

theorem fpStep_nil (s : FPSettings) (opts : List Optimization) (total : Nat)
    (vis : List (List Nat)) :
    fpStep s opts ⟨[], total, vis⟩ =
      .done (.finished (.node (.other 0) .fnil) total, vis) := rfl

theorem fpStep_push (s : FPSettings) (opts : List Optimization) (f : Frame)
    (rest : List Frame) (total : Nat) (vis : List (List Nat))
    (hg : f.depth_limit ≠ 1 ∧ f.next_child < f.node.children.length) :
    fpStep s opts ⟨f :: rest, total, vis⟩ =
      .cont ⟨⟨f.node.children.getD f.next_child,
              (if f.depth_limit = 0 then 0 else f.depth_limit - 1), 0⟩ ::
             { f with next_child := f.next_child + 1 } :: rest, total, vis⟩ := by
  simp only [fpStep]
  rw [if_pos hg]

theorem fpStep_process_explain (s : FPSettings) (opts : List Optimization)
    (f : Frame) (rest : List Frame) (total : Nat) (vis : List (List Nat))
    (a : PTree) (b : Nat)
    (hg : ¬ (f.depth_limit ≠ 1 ∧ f.next_child < f.node.children.length))
    (happ : applyOptimizations s opts f.node total 0 = .explainReturn a b) :
    fpStep s opts ⟨f :: rest, total, vis⟩ =
      .done (.explainStopped (collapse ({ f with node := a } :: rest)) b,
             vis ++ [stackPath (f :: rest)]) := by
  simp only [fpStep]
  rw [if_neg hg, happ]

theorem fpStep_process_budget (s : FPSettings) (opts : List Optimization)
    (f : Frame) (rest : List Frame) (total : Nat) (vis : List (List Nat))
    (hg : ¬ (f.depth_limit ≠ 1 ∧ f.next_child < f.node.children.length))
    (happ : applyOptimizations s opts f.node total 0 = .budgetError) :
    fpStep s opts ⟨f :: rest, total, vis⟩ =
      .done (.tooMany, vis ++ [stackPath (f :: rest)]) := by
  simp only [fpStep]
  rw [if_neg hg, happ]

theorem fpStep_process_redescend (s : FPSettings) (opts : List Optimization)
    (f : Frame) (rest : List Frame) (total : Nat) (vis : List (List Nat))
    (a : PTree) (b c : Nat)
    (hg : ¬ (f.depth_limit ≠ 1 ∧ f.next_child < f.node.children.length))
    (happ : applyOptimizations s opts f.node total 0 = .ok a b c) (hc : c ≠ 0) :
    fpStep s opts ⟨f :: rest, total, vis⟩ =
      .cont ⟨⟨a, c, 0⟩ :: rest, b, vis ++ [stackPath (f :: rest)]⟩ := by
  simp only [fpStep]
  rw [if_neg hg, happ]
  simp only [if_pos hc]

theorem fpStep_process_pop_root (s : FPSettings) (opts : List Optimization)
    (f : Frame) (total : Nat) (vis : List (List Nat)) (a : PTree) (b : Nat)
    (hg : ¬ (f.depth_limit ≠ 1 ∧ f.next_child < f.node.children.length))
    (happ : applyOptimizations s opts f.node total 0 = .ok a b 0) :
    fpStep s opts ⟨[f], total, vis⟩ =
      .done (.finished a b, vis ++ [stackPath [f]]) := by
  simp only [fpStep]
  rw [if_neg hg, happ]
  simp

theorem fpStep_process_pop (s : FPSettings) (opts : List Optimization)
    (f p : Frame) (rs : List Frame) (total : Nat) (vis : List (List Nat))
    (a : PTree) (b : Nat)
    (hg : ¬ (f.depth_limit ≠ 1 ∧ f.next_child < f.node.children.length))
    (happ : applyOptimizations s opts f.node total 0 = .ok a b 0) :
    fpStep s opts ⟨f :: p :: rs, total, vis⟩ =
      .cont ⟨writeChild p a :: rs, b, vis ++ [stackPath (f :: p :: rs)]⟩ := by
  simp only [fpStep]
  rw [if_neg hg, happ]
  simp

/-! ### Budget enforcement (first pass) -/

/-- In explain mode the rule loop never throws the budget exception: the
early `return` replaces the `throw`. -/
theorem explain_no_budgetError (s : FPSettings) (hexp : s.is_explain = true) :
    ∀ (opts : List Optimization) (sub : PTree) (total maxd : Nat),
      applyOptimizations s opts sub total maxd ≠ .budgetError := by
  intro opts
  induction opts with
  | nil => intro sub total maxd h; cases h
  | cons o rest ih =>
    intro sub total maxd
    by_cases hoe : o.is_enabled = false
    · rw [applyOptimizations_cons_disabled s o rest sub total maxd hoe]
      exact ih sub total maxd
    · have he : o.is_enabled = true := by revert hoe; cases o.is_enabled <;> simp
      match ha : o.apply with
      | none =>
        rw [applyOptimizations_cons_none s o rest sub total maxd he ha]
        exact ih sub total maxd
      | some f =>
        rw [applyOptimizations_cons_some s o rest sub total maxd f he ha]
        by_cases hb : s.max_optimizations_to_apply ≠ 0 ∧
            s.max_optimizations_to_apply < total
        · rw [if_pos hb, if_pos hexp]
          intro h; cases h
        · rw [if_neg hb]
          exact ih _ _ _

/-- With an unlimited budget (`max_optimizations_to_apply = 0`) the rule
loop always completes normally. -/
theorem max0_apply_ok (s : FPSettings) (hmax : s.max_optimizations_to_apply = 0) :
    ∀ (opts : List Optimization) (sub : PTree) (total maxd : Nat),
      ∃ a b c, applyOptimizations s opts sub total maxd = .ok a b c := by
  intro opts
  induction opts with
  | nil => intro sub total maxd; exact ⟨sub, total, maxd, rfl⟩
  | cons o rest ih =>
    intro sub total maxd
    by_cases hoe : o.is_enabled = false
    · rw [applyOptimizations_cons_disabled s o rest sub total maxd hoe]
      exact ih sub total maxd
    · have he : o.is_enabled = true := by revert hoe; cases o.is_enabled <;> simp
      match ha : o.apply with
      | none =>
        rw [applyOptimizations_cons_none s o rest sub total maxd he ha]
        exact ih sub total maxd
      | some f =>
        rw [applyOptimizations_cons_some s o rest sub total maxd f he ha]
        rw [if_neg (by rw [hmax]; simp)]
        exact ih _ _ _

/-- With a limit `K ≠ 0`, the applied-optimizations counter can never pass
`K + 1`: the check runs before each application against the count so far. -/
theorem budget_apply_bound (s : FPSettings) (K : Nat)
    (hK : s.max_optimizations_to_apply = K) (hK0 : K ≠ 0) :
    ∀ (opts : List Optimization) (sub : PTree) (total maxd : Nat),
      total ≤ K + 1 →
      (∀ a b c, applyOptimizations s opts sub total maxd = .ok a b c → b ≤ K + 1) ∧
      (∀ a b, applyOptimizations s opts sub total maxd = .explainReturn a b → b ≤ K + 1) := by
  intro opts
  induction opts with
  | nil =>
    intro sub total maxd htot
    refine ⟨fun a b c h => ?_, fun a b h => ?_⟩
    · cases h; exact htot
    · cases h
  | cons o rest ih =>
    intro sub total maxd htot
    by_cases hoe : o.is_enabled = false
    · rw [applyOptimizations_cons_disabled s o rest sub total maxd hoe]
      exact ih sub total maxd htot
    · have he : o.is_enabled = true := by revert hoe; cases o.is_enabled <;> simp
      match ha : o.apply with
      | none =>
        rw [applyOptimizations_cons_none s o rest sub total maxd he ha]
        exact ih sub total maxd htot
      | some f =>
        rw [applyOptimizations_cons_some s o rest sub total maxd f he ha]
        by_cases hb : s.max_optimizations_to_apply ≠ 0 ∧
            s.max_optimizations_to_apply < total
        · rw [if_pos hb]
          by_cases hx : s.is_explain = true
          · rw [if_pos hx]
            refine ⟨fun a b c h => ?_, fun a b h => ?_⟩
            · cases h
            · cases h; exact htot
          · rw [if_neg hx]
            refine ⟨fun a b c h => ?_, fun a b h => ?_⟩
            · cases h
            · cases h
        · rw [if_neg hb]
          have htot' : total ≤ K := by
            rw [hK] at hb
            omega
          exact ih _ _ _ (by split <;> omega)

/-- Per-iteration preservation of the budget bound, and the bound on every
early-stopped result. -/
theorem fpStep_total_bound (s : FPSettings) (opts : List Optimization) (K : Nat)
    (hK : s.max_optimizations_to_apply = K) (hK0 : K ≠ 0) (st : FPState)
    (hst : st.total ≤ K + 1) :
    (∀ st', fpStep s opts st = .cont st' → st'.total ≤ K + 1) ∧
    (∀ r vis, fpStep s opts st = .done (r, vis) →
      ∀ tr tot, (r = .finished tr tot ∨ r = .explainStopped tr tot) → tot ≤ K + 1) := by
  obtain ⟨stack, total, vis0⟩ := st
  cases stack with
  | nil =>
    refine ⟨fun st' h => ?_, fun r vis h tr tot hr => ?_⟩
    · cases h
    · rw [fpStep_nil] at h
      cases h
      rcases hr with hr | hr
      · cases hr; exact hst
      · cases hr
  | cons f rest =>
    by_cases hg : f.depth_limit ≠ 1 ∧ f.next_child < f.node.children.length
    · refine ⟨fun st' h => ?_, fun r vis h tr tot hr => ?_⟩
      · rw [fpStep_push s opts f rest total vis0 hg] at h
        cases h
        exact hst
      · rw [fpStep_push s opts f rest total vis0 hg] at h
        cases h
    · have hbound := budget_apply_bound s K hK hK0 opts f.node total 0 hst
      refine ⟨fun st' h => ?_, fun r vis h tr tot hr => ?_⟩
      · match happ : applyOptimizations s opts f.node total 0 with
        | .explainReturn a b =>
          rw [fpStep_process_explain s opts f rest total vis0 a b hg happ] at h
          cases h
        | .budgetError =>
          rw [fpStep_process_budget s opts f rest total vis0 hg happ] at h
          cases h
        | .ok a b c =>
          by_cases hc : c ≠ 0
          · rw [fpStep_process_redescend s opts f rest total vis0 a b c hg happ hc] at h
            cases h
            exact hbound.1 a b c happ
          · have hc0 : c = 0 := by omega
            subst hc0
            cases rest with
            | nil =>
              rw [fpStep_process_pop_root s opts f total vis0 a b hg happ] at h
              cases h
            | cons p rs =>
              rw [fpStep_process_pop s opts f p rs total vis0 a b hg happ] at h
              cases h
              exact hbound.1 a b 0 happ
      · match happ : applyOptimizations s opts f.node total 0 with
        | .explainReturn a b =>
          rw [fpStep_process_explain s opts f rest total vis0 a b hg happ] at h
          cases h
          rcases hr with hr | hr
          · cases hr
          · cases hr
            exact hbound.2 _ _ happ
        | .budgetError =>
          rw [fpStep_process_budget s opts f rest total vis0 hg happ] at h
          cases h
          rcases hr with hr | hr <;> cases hr
        | .ok a b c =>
          by_cases hc : c ≠ 0
          · rw [fpStep_process_redescend s opts f rest total vis0 a b c hg happ hc] at h
            cases h
          · have hc0 : c = 0 := by omega
            subst hc0
            cases rest with
            | nil =>
              rw [fpStep_process_pop_root s opts f total vis0 a b hg happ] at h
              cases h
              rcases hr with hr | hr
              · cases hr; exact hbound.1 _ _ _ happ
              · cases hr
            | cons p rs =>
              rw [fpStep_process_pop s opts f p rs total vis0 a b hg happ] at h
              cases h

/-- Whole-run version of the budget bound. -/
theorem run_total_bound (s : FPSettings) (opts : List Optimization) (K : Nat)
    (hK : s.max_optimizations_to_apply = K) (hK0 : K ≠ 0) :
    ∀ (n : Nat) (st : FPState), st.total ≤ K + 1 →
      ∀ (r : FPResult) (vis : List (List Nat)),
        runLoop (fpStep s opts) n st = some (r, vis) →
        ∀ tr tot, (r = .finished tr tot ∨ r = .explainStopped tr tot) → tot ≤ K + 1 := by
  intro n
  induction n with
  | zero => intro st _ r vis h; cases h
  | succ m ih =>
    intro st hst r vis h
    rw [runLoop] at h
    match hstep : fpStep s opts st with
    | .cont st' =>
      rw [hstep] at h
      exact ih st' ((fpStep_total_bound s opts K hK hK0 st hst).1 st' hstep) r vis h
    | .done rv =>
      rw [hstep] at h
      injection h with h2
      subst h2
      exact (fpStep_total_bound s opts K hK hK0 st hst).2 r vis hstep

/-- In explain mode one iteration can never end in the budget exception. -/
theorem fpStep_no_tooMany (s : FPSettings) (opts : List Optimization)
    (hexp : s.is_explain = true) :
    ∀ (st : FPState) (r : FPResult) (vis : List (List Nat)),
      fpStep s opts st = .done (r, vis) → r ≠ .tooMany := by
  intro st r vis h
  obtain ⟨stack, total, vis0⟩ := st
  cases stack with
  | nil =>
    rw [fpStep_nil] at h
    cases h
    intro hx; cases hx
  | cons f rest =>
    by_cases hg : f.depth_limit ≠ 1 ∧ f.next_child < f.node.children.length
    · rw [fpStep_push s opts f rest total vis0 hg] at h
      cases h
    · match happ : applyOptimizations s opts f.node total 0 with
      | .explainReturn a b =>
        rw [fpStep_process_explain s opts f rest total vis0 a b hg happ] at h
        cases h
        intro hx; cases hx
      | .budgetError =>
        exact absurd happ (explain_no_budgetError s hexp opts f.node total 0)
      | .ok a b c =>
        by_cases hc : c ≠ 0
        · rw [fpStep_process_redescend s opts f rest total vis0 a b c hg happ hc] at h
          cases h
        · have hc0 : c = 0 := by omega
          subst hc0
          cases rest with
          | nil =>
            rw [fpStep_process_pop_root s opts f total vis0 a b hg happ] at h
            cases h
            intro hx; cases hx
          | cons p rs =>
            rw [fpStep_process_pop s opts f p rs total vis0 a b hg happ] at h
            cases h

/-- Whole-run version: an explain-mode first pass never raises the budget
error. -/
theorem run_no_tooMany (s : FPSettings) (opts : List Optimization)
    (hexp : s.is_explain = true) :
    ∀ (n : Nat) (st : FPState) (r : FPResult) (vis : List (List Nat)),
      runLoop (fpStep s opts) n st = some (r, vis) → r ≠ .tooMany := by
  intro n
  induction n with
  | zero => intro st r vis h; cases h
  | succ m ih =>
    intro st r vis h
    rw [runLoop] at h
    match hstep : fpStep s opts st with
    | .cont st' =>
      rw [hstep] at h
      exact ih st' r vis h
    | .done rv =>
      rw [hstep] at h
      injection h with h2
      subst h2
      exact fpStep_no_tooMany s opts hexp st r vis hstep

/-- With `max_optimizations_to_apply = 0` an iteration can only finish by
emptying the stack. -/
theorem fpStep_max0_finished (s : FPSettings) (opts : List Optimization)
    (hmax : s.max_optimizations_to_apply = 0) :
    ∀ (st : FPState) (r : FPResult) (vis : List (List Nat)),
      fpStep s opts st = .done (r, vis) → ∃ tr tot, r = .finished tr tot := by
  intro st r vis h
  obtain ⟨stack, total, vis0⟩ := st
  cases stack with
  | nil =>
    rw [fpStep_nil] at h
    cases h
    exact ⟨_, _, rfl⟩
  | cons f rest =>
    by_cases hg : f.depth_limit ≠ 1 ∧ f.next_child < f.node.children.length
    · rw [fpStep_push s opts f rest total vis0 hg] at h
      cases h
    · obtain ⟨a, b, c, happ⟩ := max0_apply_ok s hmax opts f.node total 0
      by_cases hc : c ≠ 0
      · rw [fpStep_process_redescend s opts f rest total vis0 a b c hg happ hc] at h
        cases h
      · have hc0 : c = 0 := by omega
        subst hc0
        cases rest with
        | nil =>
          rw [fpStep_process_pop_root s opts f total vis0 a b hg happ] at h
          cases h
          exact ⟨_, _, rfl⟩
        | cons p rs =>
          rw [fpStep_process_pop s opts f p rs total vis0 a b hg happ] at h
          cases h

/-- Whole-run version: with an unlimited budget the pass can only end in
normal completion — neither the budget error nor the explain early-stop is
reachable. -/
theorem run_max0_finished (s : FPSettings) (opts : List Optimization)
    (hmax : s.max_optimizations_to_apply = 0) :
    ∀ (n : Nat) (st : FPState) (r : FPResult) (vis : List (List Nat)),
      runLoop (fpStep s opts) n st = some (r, vis) → ∃ tr tot, r = .finished tr tot := by
  intro n
  induction n with
  | zero => intro st r vis h; cases h
  | succ m ih =>
    intro st r vis h
    rw [runLoop] at h
    match hstep : fpStep s opts st with
    | .cont st' =>
      rw [hstep] at h
      exact ih st' r vis h
    | .done rv =>
      rw [hstep] at h
      injection h with h2
      subst h2
      exact fpStep_max0_finished s opts hmax st r vis hstep

/-- The rule used by the budget scenario: bumps the payload id of an
`other` node once per visit while it is below `K + 1`, reporting update
depth 1; at `K + 1` it reports 0.  Run on a single `other 0` leaf it
applies exactly `K + 1` times and then stabilizes. -/
def bumpRule (K : Nat) : PTree → PTree × Nat := fun t =>
  match t with
  | .node (.other i) cs =>
    if i < K + 1 then (.node (.other (i + 1)) cs, 1) else (t, 0)
  | t => (t, 0)

def bumpOpt (K : Nat) : Optimization := ⟨true, some (bumpRule K)⟩

theorem bump_leaf_guard (i dl : Nat) :
    ¬ ((⟨.node (.other i) .fnil, dl, 0⟩ : Frame).depth_limit ≠ 1 ∧
       (⟨.node (.other i) .fnil, dl, 0⟩ : Frame).next_child <
         (⟨.node (.other i) .fnil, dl, 0⟩ : Frame).node.children.length) := by
  intro h
  exact absurd h.2 (by simp [PForest.length])

/-- The bump scenario single-leaf run: starting at payload `i` with
`i + j = K + 1` and the counter at `i`, in `j + 1` further iterations the
pass applies the rule `j` more times and then, at the first check with the
counter at `K + 1 > K`, throws in normal mode or early-returns in explain
mode with a tree carrying `K + 1` applied changes. -/
theorem bump_run (K : Nat) (hK : K ≠ 0) (b : Bool) :
    ∀ (j i dl : Nat) (vis : List (List Nat)), i + j = K + 1 →
      runLoop (fpStep ⟨true, K, b⟩ [bumpOpt K]) (j + 1)
          ⟨[⟨.node (.other i) .fnil, dl, 0⟩], i, vis⟩ =
        some ((if b then FPResult.explainStopped (.node (.other (K + 1)) .fnil) (K + 1)
               else FPResult.tooMany),
              vis ++ List.replicate (j + 1) ([] : List Nat)) := by
  intro j
  induction j with
  | zero =>
    intro i dl vis hij
    have hi : i = K + 1 := by omega
    subst hi
    cases b with
    | false =>
      have happ : applyOptimizations ⟨true, K, false⟩ [bumpOpt K]
          (⟨.node (.other (K + 1)) .fnil, dl, 0⟩ : Frame).node (K + 1) 0 =
          .budgetError := by
        rw [applyOptimizations_cons_some _ _ _ _ _ _ (bumpRule K) rfl rfl]
        rw [if_pos (⟨hK, Nat.lt_succ_self K⟩ :
          (⟨true, K, false⟩ : FPSettings).max_optimizations_to_apply ≠ 0 ∧
          (⟨true, K, false⟩ : FPSettings).max_optimizations_to_apply < K + 1)]
        rfl
      rw [runLoop_done _ _ _ _
        (fpStep_process_budget _ _ _ _ _ _ (bump_leaf_guard (K + 1) dl) happ)]
      simp [stackPath]
    | true =>
      have happ : applyOptimizations ⟨true, K, true⟩ [bumpOpt K]
          (⟨.node (.other (K + 1)) .fnil, dl, 0⟩ : Frame).node (K + 1) 0 =
          .explainReturn (.node (.other (K + 1)) .fnil) (K + 1) := by
        rw [applyOptimizations_cons_some _ _ _ _ _ _ (bumpRule K) rfl rfl]
        rw [if_pos (⟨hK, Nat.lt_succ_self K⟩ :
          (⟨true, K, true⟩ : FPSettings).max_optimizations_to_apply ≠ 0 ∧
          (⟨true, K, true⟩ : FPSettings).max_optimizations_to_apply < K + 1)]
        rfl
      rw [runLoop_done _ _ _ _
        (fpStep_process_explain _ _ _ _ _ _ _ _ (bump_leaf_guard (K + 1) dl) happ)]
      simp [stackPath, collapse]
  | succ j0 ih =>
    intro i dl vis hij
    have hi : i ≤ K := by omega
    have happ : applyOptimizations ⟨true, K, b⟩ [bumpOpt K]
        (⟨.node (.other i) .fnil, dl, 0⟩ : Frame).node i 0 =
        .ok (.node (.other (i + 1)) .fnil) (i + 1) 1 := by
      rw [applyOptimizations_cons_some _ _ _ _ _ _ (bumpRule K) rfl rfl]
      rw [if_neg (fun hx => absurd (hx.2 : K < i) (by omega))]
      have hbump : bumpRule K (.node (.other i) .fnil) =
          (.node (.other (i + 1)) .fnil, 1) := by
        simp only [bumpRule]
        rw [if_pos (by omega)]
      rw [hbump]
      simp [applyOptimizations]
    rw [runLoop_cont _ _ _ _
      (fpStep_process_redescend _ _ _ _ _ _ _ _ _ (bump_leaf_guard i dl) happ
        (by omega))]
    rw [ih (i + 1) 1 (vis ++ [stackPath [⟨.node (.other i) .fnil, dl, 0⟩]]) (by omega)]
    simp [stackPath, List.replicate_succ]

/-- C1 (amended): with `max_optimizations_to_apply = K ≠ 0`, (1) the
applied count of any completed or explain-stopped run never exceeds K + 1
— not K: the check `max < total` runs before each application against the
count so far, so K + 1 applications go through before the budget trips;
(2) an explain-mode run never raises the budget error; (3) with K = 0 the
budget is unlimited: the run can only finish normally, and neither the
budget error nor the explain stop ever occurs; (4) in the bump scenario,
which applies exactly K + 1 times, the normal-mode run raises the budget
error and the explain-mode run stops early with no error and a tree
carrying exactly K + 1 applied changes. -/
theorem C1_budget_enforcement (K : Nat) (hK0 : K ≠ 0) :
    (∀ (s : FPSettings) (opts : List Optimization) (n : Nat) (st : FPState)
       (r : FPResult) (vis : List (List Nat)),
       s.max_optimizations_to_apply = K → st.total ≤ K + 1 →
       runLoop (fpStep s opts) n st = some (r, vis) →
       ∀ tr tot, (r = .finished tr tot ∨ r = .explainStopped tr tot) → tot ≤ K + 1) ∧
    (∀ (s : FPSettings) (opts : List Optimization) (n : Nat) (t : PTree)
       (r : FPResult) (vis : List (List Nat)), s.is_explain = true →
       runFP s opts n t = some (r, vis) → r ≠ .tooMany) ∧
    (∀ (s : FPSettings) (opts : List Optimization) (n : Nat) (t : PTree)
       (r : FPResult) (vis : List (List Nat)), s.max_optimizations_to_apply = 0 →
       runFP s opts n t = some (r, vis) → ∃ tr tot, r = .finished tr tot) ∧
    (runFP ⟨true, K, false⟩ [bumpOpt K] (K + 2) (.node (.other 0) .fnil)
       = some (.tooMany, List.replicate (K + 2) ([] : List Nat)) ∧
     runFP ⟨true, K, true⟩ [bumpOpt K] (K + 2) (.node (.other 0) .fnil)
       = some (.explainStopped (.node (.other (K + 1)) .fnil) (K + 1),
               List.replicate (K + 2) ([] : List Nat))) := by
  refine ⟨?_, ?_, ?_, ?_, ?_⟩
  · intro s opts n st r vis hK hst h
    exact run_total_bound s opts K hK hK0 n st hst r vis h
  · intro s opts n t r vis hexp h
    exact run_no_tooMany s opts hexp n _ r vis h
  · intro s opts n t r vis hmax h
    exact run_max0_finished s opts hmax n _ r vis h
  · have h := bump_run K hK0 false (K + 1) 0 0 [] (by omega)
    unfold runFP initState
    rw [show K + 2 = (K + 1) + 1 from rfl]
    simpa using h
  · have h := bump_run K hK0 true (K + 1) 0 0 [] (by omega)
    unfold runFP initState
    rw [show K + 2 = (K + 1) + 1 from rfl]
    simpa using h

/-- Witness for C1 at K = 1: normal mode errors, explain mode stops with
2 = K + 1 applications. -/
theorem C1_budget_enforcement_witness :
    runFP ⟨true, 1, false⟩ [bumpOpt 1] 3 (.node (.other 0) .fnil)
        = some (.tooMany, [[], [], []]) ∧
    runFP ⟨true, 1, true⟩ [bumpOpt 1] 3 (.node (.other 0) .fnil)
        = some (.explainStopped (.node (.other 2) .fnil) 2, [[], [], []]) := by
  have h := (C1_budget_enforcement 1 (by decide)).2.2.2
  exact ⟨by simpa using h.1, by simpa using h.2⟩

/-- C1 counterexample: the claim promises that in dry-run/explain mode the
tree carries at most K applied changes.  At K = 1 with a rule set that
would apply K + 1 = 2 times, the explain run completes with no error but
with 2 applied changes — 2 > K = 1, refuting the "at most K" bound. -/
theorem C1_counterexample :
    runFP ⟨true, 1, true⟩ [bumpOpt 1] 3 (.node (.other 0) .fnil)
        = some (.explainStopped (.node (.other 2) .fnil) 2, [[], [], []]) ∧
    ¬ (2 ≤ 1) := by
  have h := bump_run 1 (by decide) true 2 0 0 [] (by decide)
  refine ⟨?_, by decide⟩
  have hrw : runFP ⟨true, 1, true⟩ [bumpOpt 1] 3 (.node (.other 0) .fnil) =
      runLoop (fpStep ⟨true, 1, true⟩ [bumpOpt 1]) 3
        ⟨[⟨.node (.other 0) .fnil, 0, 0⟩], 0, []⟩ := rfl
  rw [hrw]
  rw [show (3 : Nat) = 2 + 1 from rfl]
  rw [h]
  simp [List.replicate]

/-! ### Termination of the first pass (C3) -/

mutual
/-- Weighted node-count of a tree: the sum of a per-step weight over all
nodes.  A fixpoint certificate for a rule set: each changing application
must shrink this sum. -/
def muT (w : PStep → Nat) : PTree → Nat
  | .node s cs => w s + muF w cs

def muF (w : PStep → Nat) : PForest → Nat
  | .fnil => 0
  | .fcons t ts => muT w t + muF w ts
end

/-- Termination certificate for a registry: every enabled, initialized
rule leaves the subtree unchanged when it reports 0 and strictly decreases
the weighted node-count when it reports a nonzero depth ("the rule
eventually reports update-depth 0 at every node").  The spec's test rule —
change a node exactly once, then report 0 — is certified by weighting the
not-yet-changed payload 1 and everything else 0. -/
def DecreasingRules (w : PStep → Nat) (opts : List Optimization) : Prop :=
  ∀ o ∈ opts, o.is_enabled = true → ∀ f, o.apply = some f →
    ∀ u, ((f u).2 = 0 → (f u).1 = u) ∧ ((f u).2 ≠ 0 → muT w (f u).1 < muT w u)

theorem tree_eta (t : PTree) : PTree.node t.step t.children = t := by
  cases t; rfl

theorem muT_eq (w : PStep → Nat) (t : PTree) :
    muT w t = w t.step + muF w t.children := by
  cases t; rfl

theorem sizeT_eq (t : PTree) : t.size = t.children.size + 1 := by
  cases t; rfl

theorem set_getD_self : ∀ (cs : PForest) (i : Nat), i < cs.length →
    cs.set i (cs.getD i) = cs
  | .fnil, i => by intro h; rfl
  | .fcons a as, 0 => by intro h; rfl
  | .fcons a as, n + 1 => by
    intro h
    have hn : n < as.length := by
      simp [PForest.length] at h
      omega
    show PForest.fcons a (as.set n (as.getD n)) = PForest.fcons a as
    rw [set_getD_self as n hn]

theorem drop_cons_of_lt : ∀ (cs : PForest) (i : Nat), i < cs.length →
    cs.drop i = .fcons (cs.getD i) (cs.drop (i + 1))
  | .fnil, i => by
    intro h
    simp [PForest.length] at h
  | .fcons a as, 0 => by
    intro h
    rw [drop_zero]
    show PForest.fcons a as = PForest.fcons a (as.drop 0)
    rw [drop_zero]
  | .fcons a as, n + 1 => by
    intro h
    have hn : n < as.length := by
      simp [PForest.length] at h
      omega
    show as.drop n = _
    rw [drop_cons_of_lt as n hn]
    rfl

theorem drop_set_of_lt : ∀ (cs : PForest) (i n : Nat) (t : PTree), i < n →
    (cs.set i t).drop n = cs.drop n
  | .fnil, i, n, t => by intro h; rfl
  | .fcons a as, 0, n, t => by
    intro h
    match n, h with
    | n + 1, _ =>
      show as.drop n = as.drop n
      rfl
  | .fcons a as, i + 1, n, t => by
    intro h
    match n, h with
    | n + 1, h =>
      show (as.set i t).drop n = as.drop n
      exact drop_set_of_lt as i n t (by omega)

theorem muF_set_le (w : PStep → Nat) :
    ∀ (cs : PForest) (i : Nat) (t t' : PTree), muT w t ≤ muT w t' →
      muF w (cs.set i t) ≤ muF w (cs.set i t')
  | .fnil, i, t, t' => by intro h; exact Nat.le_refl _
  | .fcons a as, 0, t, t' => by
    intro h
    show muT w t + muF w as ≤ muT w t' + muF w as
    omega
  | .fcons a as, i + 1, t, t' => by
    intro h
    show muT w a + muF w (as.set i t) ≤ muT w a + muF w (as.set i t')
    have := muF_set_le w as i t t' h
    omega

theorem muF_set_lt (w : PStep → Nat) :
    ∀ (cs : PForest) (i : Nat) (t t' : PTree), i < cs.length → muT w t < muT w t' →
      muF w (cs.set i t) < muF w (cs.set i t')
  | .fnil, i, t, t' => by
    intro hi h
    simp [PForest.length] at hi
  | .fcons a as, 0, t, t' => by
    intro hi h
    show muT w t + muF w as < muT w t' + muF w as
    omega
  | .fcons a as, i + 1, t, t' => by
    intro hi h
    show muT w a + muF w (as.set i t) < muT w a + muF w (as.set i t')
    have hn : i < as.length := by
      simp [PForest.length] at hi
      omega
    have := muF_set_lt w as i t t' hn h
    omega

/-- Frames below the top of the stack always have their cursor one past a
valid child index. -/
def ChainRest (l : List Frame) : Prop :=
  ∀ p ∈ l, 1 ≤ p.next_child ∧ p.next_child ≤ p.node.children.length

/-- Stack well-formedness invariant of the first-pass loop. -/
def FPInv (st : FPState) : Prop := ChainRest (st.stack.drop 1)

theorem collapse_single (f : Frame) : collapse [f] = f.node := by
  rw [collapse]

theorem collapse_cons_cons (f p : Frame) (rs : List Frame) :
    collapse (f :: p :: rs) = collapse (writeChild p f.node :: rs) := by
  rw [collapse]

theorem collapse_node_eq : ∀ (rest : List Frame) (f g : Frame),
    f.node = g.node → collapse (f :: rest) = collapse (g :: rest) := by
  intro rest
  cases rest with
  | nil => intro f g h; simpa [collapse] using h
  | cons p rs =>
    intro f g h
    rw [collapse_cons_cons, collapse_cons_cons, h]

theorem collapse_mono_le (w : PStep → Nat) :
    ∀ (rest : List Frame), ChainRest rest → ∀ (f g : Frame),
      muT w f.node ≤ muT w g.node →
      muT w (collapse (f :: rest)) ≤ muT w (collapse (g :: rest)) := by
  intro rest
  induction rest with
  | nil =>
    intro _ f g h
    simpa [collapse] using h
  | cons p rs ih =>
    intro hc f g h
    rw [collapse_cons_cons, collapse_cons_cons]
    refine ih (fun q hq => hc q (List.mem_cons_of_mem p hq)) _ _ ?_
    simp only [writeChild, muT_eq, step_node, children_node]
    have := muF_set_le w p.node.children (p.next_child - 1) f.node g.node h
    omega

theorem collapse_mono_lt (w : PStep → Nat) :
    ∀ (rest : List Frame), ChainRest rest → ∀ (f g : Frame),
      muT w f.node < muT w g.node →
      muT w (collapse (f :: rest)) < muT w (collapse (g :: rest)) := by
  intro rest
  induction rest with
  | nil =>
    intro _ f g h
    simpa [collapse] using h
  | cons p rs ih =>
    intro hc f g h
    rw [collapse_cons_cons, collapse_cons_cons]
    refine ih (fun q hq => hc q (List.mem_cons_of_mem p hq)) _ _ ?_
    simp only [writeChild, muT_eq, step_node, children_node]
    obtain ⟨h1, h2⟩ := hc p (List.mem_cons_self p rs)
    have hidx : p.next_child - 1 < p.node.children.length := by omega
    have := muF_set_lt w p.node.children (p.next_child - 1) f.node g.node hidx h
    omega

/-- Under a decreasing-rule certificate, one visit's rule loop: the
reported maximum only grows; the weighted count never grows; a visit
reporting 0 (started from 0) changed nothing; a visit reporting nonzero
strictly shrank the weighted count. -/
theorem decreasing_apply (s : FPSettings) (w : PStep → Nat) :
    ∀ (opts : List Optimization), DecreasingRules w opts →
      ∀ (sub : PTree) (total maxd : Nat) (sub' : PTree) (total' maxd' : Nat),
        applyOptimizations s opts sub total maxd = .ok sub' total' maxd' →
        maxd ≤ maxd' ∧ muT w sub' ≤ muT w sub ∧
        (maxd' = 0 → sub' = sub ∧ total' = total) ∧
        (maxd = 0 → maxd' ≠ 0 → muT w sub' < muT w sub) := by
  intro opts
  induction opts with
  | nil =>
    intro _ sub total maxd sub' total' maxd' h
    cases h
    refine ⟨Nat.le_refl _, Nat.le_refl _, fun _ => ⟨rfl, rfl⟩, fun h0 h1 => ?_⟩
    exact absurd h0 h1
  | cons o rest ih =>
    intro hdec sub total maxd sub' total' maxd' h
    have hdec' : DecreasingRules w rest :=
      fun o' ho' => hdec o' (List.mem_cons_of_mem o ho')
    by_cases hoe : o.is_enabled = false
    · rw [applyOptimizations_cons_disabled s o rest sub total maxd hoe] at h
      exact ih hdec' sub total maxd sub' total' maxd' h
    · have he : o.is_enabled = true := by revert hoe; cases o.is_enabled <;> simp
      match ha : o.apply with
      | none =>
        rw [applyOptimizations_cons_none s o rest sub total maxd he ha] at h
        exact ih hdec' sub total maxd sub' total' maxd' h
      | some f =>
        rw [applyOptimizations_cons_some s o rest sub total maxd f he ha] at h
        by_cases hb : s.max_optimizations_to_apply ≠ 0 ∧
            s.max_optimizations_to_apply < total
        · rw [if_pos hb] at h
          by_cases hx : s.is_explain = true
          · rw [if_pos hx] at h; cases h
          · rw [if_neg hx] at h; cases h
        · rw [if_neg hb] at h
          have hrule := hdec o (List.mem_cons_self o rest) he f ha sub
          obtain ⟨hA, hB, hC, hD⟩ :=
            ih hdec' (f sub).1 (if (f sub).2 ≠ 0 then total + 1 else total)
              (Nat.max maxd (f sub).2) sub' total' maxd' h
          by_cases hr2 : (f sub).2 = 0
          · have hr1 : (f sub).1 = sub := hrule.1 hr2
            rw [hr1] at hB hC hD
            rw [hr2] at hA hC hD
            simp only [Nat.max_zero] at hA hC hD
            refine ⟨hA, hB, ?_, ?_⟩
            · intro h0
              obtain ⟨h1, h2⟩ := hC h0
              refine ⟨h1, ?_⟩
              rw [h2]
              simp [hr2]
            · intro h0 h1
              rw [h0] at hD
              exact hD rfl h1
          · have hlt : muT w (f sub).1 < muT w sub := hrule.2 hr2
            refine ⟨Nat.le_trans (Nat.le_max_left _ _) hA, Nat.lt_of_le_of_lt hB hlt |>.le, ?_, ?_⟩
            · intro h0
              exfalso
              have : Nat.max maxd (f sub).2 ≤ maxd' := hA
              have : (f sub).2 ≤ maxd' := Nat.le_trans (Nat.le_max_right _ _) hA
              omega
            · intro _ _
              exact Nat.lt_of_le_of_lt hB hlt

/-- Traversal weight of one frame: twice the total size of its not yet
visited children, plus one. -/
def frameW (f : Frame) : Nat :=
  2 * (f.node.children.drop f.next_child).size + 1

/-- Traversal weight of the whole stack. -/
def travM (l : List Frame) : Nat := (l.map frameW).sum

theorem travM_cons (f : Frame) (l : List Frame) :
    travM (f :: l) = frameW f + travM l := by
  simp [travM]

/-- Core case analysis of one first-pass iteration under a decreasing-rule
certificate: it either finishes, or continues with the pair (weighted
count of the reassembled tree, traversal weight) strictly smaller in
lexicographic order, preserving stack well-formedness. -/
theorem fp_step_case (s : FPSettings) (opts : List Optimization) (w : PStep → Nat)
    (hdec : DecreasingRules w opts) (st : FPState) (hInv : FPInv st) :
    (∃ r, fpStep s opts st = .done r) ∨
    (∃ st', fpStep s opts st = .cont st' ∧ FPInv st' ∧
      ((muT w (collapse st'.stack) = muT w (collapse st.stack) ∧
        travM st'.stack < travM st.stack) ∨
       muT w (collapse st'.stack) < muT w (collapse st.stack))) := by
  obtain ⟨stack, total, vis⟩ := st
  cases stack with
  | nil => exact Or.inl ⟨_, fpStep_nil s opts total vis⟩
  | cons f rest =>
    have hInv' : ChainRest rest := hInv
    by_cases hg : f.depth_limit ≠ 1 ∧ f.next_child < f.node.children.length
    · right
      refine ⟨_, fpStep_push s opts f rest total vis hg, ?_, ?_⟩
      · intro p hp
        rcases List.mem_cons.mp hp with hp | hp
        · subst hp
          refine ⟨?_, ?_⟩
          · show 1 ≤ f.next_child + 1
            omega
          · show f.next_child + 1 ≤ f.node.children.length
            omega
        · exact hInv' p hp
      · left
        have hnode : (writeChild { f with next_child := f.next_child + 1 }
            (f.node.children.getD f.next_child)).node = f.node := by
          simp only [writeChild]
          rw [Nat.add_sub_cancel]
          rw [set_getD_self _ _ hg.2]
          exact tree_eta f.node
        constructor
        · refine congrArg (muT w) ?_
          refine Eq.trans (collapse_cons_cons _ _ _) ?_
          exact collapse_node_eq rest _ f hnode
        · rw [travM_cons, travM_cons, travM_cons]
          have e1 : frameW f = 2 * ((f.node.children.getD f.next_child).size +
              (f.node.children.drop (f.next_child + 1)).size) + 1 := by
            unfold frameW
            rw [drop_cons_of_lt _ _ hg.2]
            simp [PForest.size]
          have e2 : frameW ⟨f.node.children.getD f.next_child,
              (if f.depth_limit = 0 then 0 else f.depth_limit - 1), 0⟩ =
              2 * ((f.node.children.getD f.next_child).size - 1) + 1 := by
            unfold frameW
            simp only [drop_zero]
            rw [sizeT_eq]
            simp
          have e3 : frameW { f with next_child := f.next_child + 1 } =
              2 * (f.node.children.drop (f.next_child + 1)).size + 1 := rfl
          have e4 : 1 ≤ (f.node.children.getD f.next_child).size := by
            rw [sizeT_eq]; omega
          rw [e1, e2, e3]
          omega
    · match happ : applyOptimizations s opts f.node total 0 with
      | .explainReturn a b =>
        exact Or.inl ⟨_, fpStep_process_explain s opts f rest total vis a b hg happ⟩
      | .budgetError =>
        exact Or.inl ⟨_, fpStep_process_budget s opts f rest total vis hg happ⟩
      | .ok a b c =>
        obtain ⟨hA, hB, hC, hD⟩ :=
          decreasing_apply s w opts hdec f.node total 0 a b c happ
        by_cases hc : c ≠ 0
        · right
          refine ⟨_, fpStep_process_redescend s opts f rest total vis a b c hg happ hc,
            hInv', Or.inr ?_⟩
          exact collapse_mono_lt w rest hInv' ⟨a, c, 0⟩ f (hD rfl hc)
        · have hc0 : c = 0 := by omega
          subst hc0
          obtain ⟨ha1, hb1⟩ := hC rfl
          cases rest with
          | nil =>
            exact Or.inl ⟨_, fpStep_process_pop_root s opts f total vis a b hg happ⟩
          | cons p rs =>
            right
            refine ⟨_, fpStep_process_pop s opts f p rs total vis a b hg happ,
              ?_, Or.inl ⟨?_, ?_⟩⟩
            · intro q hq
              exact hInv' q (List.mem_cons_of_mem p hq)
            · subst ha1
              rw [collapse_cons_cons]
            · rw [travM_cons, travM_cons, travM_cons]
              have hfw : frameW (writeChild p a) = frameW p := by
                unfold frameW writeChild
                simp only [children_node]
                have hp := hInv' p (List.mem_cons_self p rs)
                rw [drop_set_of_lt _ _ _ _ (by omega)]
              have hf1 : 1 ≤ frameW f := by unfold frameW; omega
              omega

/-- The first-pass loop terminates from any well-formed state under a
decreasing-rule certificate: double induction on the weighted node-count
bound and the traversal-weight bound. -/
theorem fp_term_aux (s : FPSettings) (opts : List Optimization) (w : PStep → Nat)
    (hdec : DecreasingRules w opts) :
    ∀ (M T : Nat) (st : FPState), FPInv st →
      muT w (collapse st.stack) ≤ M → travM st.stack ≤ T →
      ∃ n r, runLoop (fpStep s opts) n st = some r := by
  intro M
  induction M with
  | zero =>
    intro T
    induction T with
    | zero =>
      intro st hInv hM hT
      rcases fp_step_case s opts w hdec st hInv with ⟨r, hr⟩ | ⟨st', _, _, hmeas⟩
      · exact ⟨1, r, runLoop_done _ _ _ _ hr⟩
      · rcases hmeas with ⟨heq, hlt⟩ | hlt <;> omega
    | succ T ihT =>
      intro st hInv hM hT
      rcases fp_step_case s opts w hdec st hInv with ⟨r, hr⟩ | ⟨st', hstep, hInv2, hmeas⟩
      · exact ⟨1, r, runLoop_done _ _ _ _ hr⟩
      · rcases hmeas with ⟨heq, hlt⟩ | hlt
        · obtain ⟨n, r, hrun⟩ := ihT st' hInv2 (by omega) (by omega)
          exact ⟨n + 1, r, by rw [runLoop_cont _ _ _ _ hstep]; exact hrun⟩
        · omega
  | succ M ihM =>
    intro T
    induction T with
    | zero =>
      intro st hInv hM hT
      rcases fp_step_case s opts w hdec st hInv with ⟨r, hr⟩ | ⟨st', hstep, hInv2, hmeas⟩
      · exact ⟨1, r, runLoop_done _ _ _ _ hr⟩
      · rcases hmeas with ⟨heq, hlt⟩ | hlt
        · omega
        · obtain ⟨n, r, hrun⟩ := ihM (travM st'.stack) st' hInv2 (by omega) (Nat.le_refl _)
          exact ⟨n + 1, r, by rw [runLoop_cont _ _ _ _ hstep]; exact hrun⟩
    | succ T ihT =>
      intro st hInv hM hT
      rcases fp_step_case s opts w hdec st hInv with ⟨r, hr⟩ | ⟨st', hstep, hInv2, hmeas⟩
      · exact ⟨1, r, runLoop_done _ _ _ _ hr⟩
      · rcases hmeas with ⟨heq, hlt⟩ | hlt
        · obtain ⟨n, r, hrun⟩ := ihT st' hInv2 (by omega) (by omega)
          exact ⟨n + 1, r, by rw [runLoop_cont _ _ _ _ hstep]; exact hrun⟩
        · obtain ⟨n, r, hrun⟩ := ihM (travM st'.stack) st' hInv2 (by omega) (Nat.le_refl _)
          exact ⟨n + 1, r, by rw [runLoop_cont _ _ _ _ hstep]; exact hrun⟩

/-- C3: for every finite tree and every rule set certified to eventually
report update-depth 0 everywhere (each rule's changing applications
strictly decrease a weighted node-count; reports of 0 change nothing), the
first-pass driver terminates: some finite fuel makes the loop return, and
with an unlimited budget the only possible outcome is normal completion (the
frame stack empties — no infinite re-descent, no error). -/
theorem C3_first_pass_terminates (s : FPSettings) (opts : List Optimization)
    (w : PStep → Nat) (hdec : DecreasingRules w opts) (t : PTree) :
    ∃ n r vis, runFP s opts n t = some (r, vis) ∧
      (s.max_optimizations_to_apply = 0 → ∃ tr tot, r = .finished tr tot) := by
  obtain ⟨n, rp, hrun⟩ := fp_term_aux s opts w hdec
    (muT w (collapse (initState t).stack)) (travM (initState t).stack)
    (initState t) (fun p hp => absurd hp (List.not_mem_nil p))
    (Nat.le_refl _) (Nat.le_refl _)
  obtain ⟨r, vis⟩ := rp
  refine ⟨n, r, vis, hrun, ?_⟩
  intro hmax
  exact run_max0_finished s opts hmax n (initState t) r vis hrun

/-- The spec's test rule: changes an `other 0` node exactly once (to
`other 1`, reporting depth 1) and thereafter reports 0. -/
def onceRule : PTree → PTree × Nat := fun u =>
  match u with
  | .node (.other 0) cs => (.node (.other 1) cs, 1)
  | u => (u, 0)

/-- Weight certifying `onceRule`: not-yet-changed payloads weigh 1. -/
def onceW : PStep → Nat := fun st =>
  match st with
  | .other 0 => 1
  | _ => 0

/-- Witness for C3: the once-changing rule on a single-node tree; the pass
terminates and, the budget being unlimited, finishes normally. -/
theorem C3_first_pass_terminates_witness :
    ∃ n r vis, runFP ⟨true, 0, false⟩ [⟨true, some onceRule⟩] n
        (.node (.other 0) .fnil) = some (r, vis) ∧
      ((⟨true, 0, false⟩ : FPSettings).max_optimizations_to_apply = 0 →
        ∃ tr tot, r = FPResult.finished tr tot) := by
  refine C3_first_pass_terminates ⟨true, 0, false⟩ [⟨true, some onceRule⟩] onceW
    ?_ (.node (.other 0) .fnil)
  intro o ho he f hf u
  simp only [List.mem_singleton] at ho
  subst ho
  simp only [Option.some.injEq] at hf
  subst hf
  constructor
  · intro h0
    cases u with
    | node st cs =>
      cases st with
      | other i =>
        cases i with
        | zero => simp [onceRule] at h0
        | succ j => rfl
      | readFromMergeTree i => rfl
      | readFromLocalReplica i => rfl
  · intro h1
    cases u with
    | node st cs =>
      cases st with
      | other i =>
        cases i with
        | zero =>
          show muT onceW (.node (.other 1) cs) < muT onceW (.node (.other 0) cs)
          rw [muT_eq, muT_eq]
          simp only [step_node, children_node]
          have h2 : onceW (.other 1) = 0 := rfl
          have h3 : onceW (.other 0) = 1 := rfl
          rw [h2, h3]
          omega
        | succ j => exact absurd rfl h1
      | readFromMergeTree i => exact absurd rfl h1
      | readFromLocalReplica i => exact absurd rfl h1

/-! ### Second pass (`optimizeTreeSecondPass`, source lines 122–333) -/

/-- The slice of `QueryPlanOptimizationSettings` read by
`optimizeTreeSecondPass` itself. -/
structure SPSettings where
  max_optimizations_to_apply : Nat
  is_explain : Bool
  optimize_prewhere : Bool
  read_in_order : Bool
  distinct_in_order : Bool
  merge_expressions : Bool
  remove_redundant_sorting : Bool
  optimize_projection : Bool
  optimize_use_implicit_projections : Bool
  aggregation_in_order : Bool
  optimize_lazy_materialization : Bool
  max_limit_for_lazy_materialization : Nat
  force_use_projection : Bool
  force_projection_name : String
  query_plan_join_shard_by_pk_ranges : Bool

/-- A second-pass traversal frame (the `Stack` of Optimizations.h): node
and next-child cursor only.  The cursor is a C++ `size_t`; the one place
the driver decrements it can underflow, so the decrement wraps mod 2^64. -/
structure SPFrame where
  node : PTree
  next_child : Nat := 0

def USIZE : Nat := 2 ^ 64

/-- `--next_child` with `size_t` wrap-around (the underflow at 0 is
reachable: a normal projection applied at a childless frame). -/
def usub1 (n : Nat) : Nat := (n + (USIZE - 1)) % USIZE

def spWriteChild (p : SPFrame) (t : PTree) : SPFrame :=
  { p with node := .node p.node.step (p.node.children.set (p.next_child - 1) t) }

def spCollapse : List SPFrame → PTree
  | [] => .node (.other 0) .fnil
  | [f] => f.node
  | f :: p :: rest => spCollapse (spWriteChild p f.node :: rest)
termination_by st => st.length

def spPath (st : List SPFrame) : List Nat :=
  (st.drop 1).reverse.map (fun f => f.next_child - 1)

/-- Decrement the top frame's cursor (`--stack.back().next_child`). -/
def decTop : List SPFrame → List SPFrame
  | [] => []
  | f :: rest => { f with next_child := usub1 f.next_child } :: rest

/-- The second-pass helper functions.  All of them live outside this
repository slice (only their call sites are in `optimizeTree.cpp`), so
they are abstract parameters of the driver; each field is modelled from
the spec only as far as its interface: a per-node (or per-stack) tree
transformation with the auxiliary data the driver threads around.
`optimizePlan` stands for the recursive `QueryPlan::optimize` invoked on a
local replica's extracted sub-plan. -/
structure SPParams where
  optimizePrimaryKeyConditionAndLimit : List SPFrame → List SPFrame
  updateQueryConditionCache : List SPFrame → List SPFrame
  optimizePrewhere : List SPFrame → List SPFrame
  calculateHashTableCacheKeys : PTree → PTree
  optimizeJoinLogical : PTree → PTree × Nat
  convertLogicalJoinToPhysical : PTree → Nat → PTree × Bool
  optimizeJoinLegacy : PTree → PTree
  optimizeReadInOrder : PTree → PTree
  optimizeDistinctInOrder : PTree → PTree
  extractQueryPlan : Nat → PTree
  optimizePlan : PTree → PTree
  tryMergeExpressions : PTree → PTree
  tryRemoveRedundantSorting : PTree → PTree
  optimizeUseAggregateProjections : PTree → Bool → PTree × Option String
  optimizeAggregationInOrder : PTree → PTree
  optimizeUseNormalProjections : List SPFrame → Option (List SPFrame × String)
  optimizeLazyMaterialization : PTree → List SPFrame → Nat → Option PTree
  applyOrder : PTree → PTree
  optimizeJoinByShards : PTree → PTree

/-- Errors raised by the second pass. -/
inductive SPError where
  | tooManyProjections
  | projectionNotUsed
  | incorrectData
deriving DecidableEq

def isMT : PStep → Bool
  | .readFromMergeTree _ => true
  | _ => false

def isLR : PStep → Bool
  | .readFromLocalReplica _ => true
  | _ => false

/-- Phase 1 loop (source lines 132–155): each iteration first runs the
primary-key/limit, query-condition-cache and (if enabled) prewhere
rewrites on the whole stack, then pushes the next unvisited child or pops. -/
def phaseAStep (pr : SPParams) (s : SPSettings) :
    List SPFrame → LoopRes (List SPFrame) PTree := fun stack0 =>
  match stack0 with
  | [] => .done (.node (.other 0) .fnil)
  | _ :: _ =>
    let st1 := pr.optimizePrimaryKeyConditionAndLimit stack0
    let st2 := pr.updateQueryConditionCache st1
    let st3 := if s.optimize_prewhere then pr.optimizePrewhere st2 else st2
    match st3 with
    | [] => .done (.node (.other 0) .fnil)
    | f :: rest =>
      if f.next_child < f.node.children.length then
        .cont (⟨f.node.children.getD f.next_child, 0⟩ ::
               { f with next_child := f.next_child + 1 } :: rest)
      else
        match rest with
        | [] => .done f.node
        | p :: rs => .cont (spWriteChild p f.node :: rs)

def phaseA (fuel : Nat) (pr : SPParams) (s : SPSettings) (t : PTree) : Option PTree :=
  runLoop (phaseAStep pr s) fuel [⟨t, 0⟩]

/-- The per-node first-visit work of phase 3 (source lines 164–176):
logical-join planning, conversion to a physical join (falling back to the
legacy join path), then read-in-order and distinct-in-order. -/
def phaseCVisit (pr : SPParams) (s : SPSettings) (t : PTree) : PTree :=
  let r1 := pr.optimizeJoinLogical t
  let r2 := pr.convertLogicalJoinToPhysical r1.1 r1.2
  let t3 := if r2.2 then r2.1 else pr.optimizeJoinLegacy r2.1
  let t4 := if s.read_in_order then pr.optimizeReadInOrder t3 else t3
  if s.distinct_in_order then pr.optimizeDistinctInOrder t4 else t4

/-- Phase 3 loop (source lines 159–188): pre-order per-node join/order
work on the first visit, then the usual push/pop traversal. -/
def phaseCStep (pr : SPParams) (s : SPSettings) :
    List SPFrame → LoopRes (List SPFrame) PTree := fun stack0 =>
  match stack0 with
  | [] => .done (.node (.other 0) .fnil)
  | f :: rest =>
    let f' := if f.next_child = 0 then { f with node := phaseCVisit pr s f.node } else f
    if f'.next_child < f'.node.children.length then
      .cont (⟨f'.node.children.getD f'.next_child, 0⟩ ::
             { f' with next_child := f'.next_child + 1 } :: rest)
    else
      match rest with
      | [] => .done f'.node
      | p :: rs => .cont (spWriteChild p f'.node :: rs)

def phaseC (fuel : Nat) (pr : SPParams) (s : SPSettings) (t : PTree) : Option PTree :=
  runLoop (phaseCStep pr s) fuel [⟨t, 0⟩]

/-- Phase 4 loop (source lines 190–225): post-order; when the processed
node's step is a `ReadFromLocalParallelReplicaStep`, set the flag, extract
its sub-plan, recursively optimize it, splice it in place of the node,
and merge adjacent expressions if enabled. -/
def phaseDStep (pr : SPParams) (s : SPSettings) :
    List SPFrame × Bool → LoopRes (List SPFrame × Bool) (PTree × Bool) := fun st0 =>
  match st0 with
  | ([], found) => .done (.node (.other 0) .fnil, found)
  | (f :: rest, found) =>
    if f.next_child < f.node.children.length then
      .cont (⟨f.node.children.getD f.next_child, 0⟩ ::
             { f with next_child := f.next_child + 1 } :: rest, found)
    else
      match f.node.step with
      | .readFromLocalReplica id =>
        let lp := pr.optimizePlan (pr.extractQueryPlan id)
        let lp' := if s.merge_expressions then pr.tryMergeExpressions lp else lp
        (match rest with
         | [] => .done (lp', true)
         | p :: rs => .cont (spWriteChild p lp' :: rs, true))
      | _ =>
        (match rest with
         | [] => .done (f.node, found)
         | p :: rs => .cont (spWriteChild p f.node :: rs, found))

def phaseD (fuel : Nat) (pr : SPParams) (s : SPSettings) (t : PTree) :
    Option (PTree × Bool) :=
  runLoop (phaseDStep pr s) fuel ([⟨t, 0⟩], false)

mutual
/-- Recursive specification of one phase-4 traversal of a subtree: the
spliced tree and whether any local-replica read was found. -/
def phaseDNodeT (pr : SPParams) (s : SPSettings) : PTree → PTree × Bool
  | .node st cs =>
    let r := phaseDNodeF pr s cs
    match st with
    | .readFromLocalReplica id =>
      let lp := pr.optimizePlan (pr.extractQueryPlan id)
      let lp' := if s.merge_expressions then pr.tryMergeExpressions lp else lp
      (lp', true)
    | _ => (.node st r.1, r.2)

def phaseDNodeF (pr : SPParams) (s : SPSettings) : PForest → PForest × Bool
  | .fnil => (.fnil, false)
  | .fcons t ts =>
    let a := phaseDNodeT pr s t
    let b := phaseDNodeF pr s ts
    (.fcons a.1 b.1, a.2 || b.2)
end

mutual
/-- Whether any node of the tree is a local-replica read step. -/
def containsLRT : PTree → Bool
  | .node st cs => isLR st || containsLRF cs

def containsLRF : PForest → Bool
  | .fnil => false
  | .fcons t ts => containsLRT t || containsLRF ts
end

/-- A member of a projection-name set (`std::unordered_set<String>`,
modelled as a duplicate-free list). -/
def insertName (l : List String) (n : String) : List String :=
  if l.contains n then l else n :: l

/-- Phase 5 loop (source lines 228–286): on the first visit record whether
the step reads from a merge tree, try the aggregate-projection rewrite and
in-order aggregation; after the children, try the normal-projection
rewrite on the whole stack — on success, record the name, enforce the
projection budget (fatal only outside explain), decrement the cursor and
re-run on the same frame. -/
def phaseEStep (pr : SPParams) (s : SPSettings) :
    List SPFrame × List String × Bool →
      LoopRes (List SPFrame × List String × Bool)
        (Except SPError (PTree × List String × Bool)) := fun st0 =>
  match st0 with
  | ([], names, hmt) => .done (.ok (.node (.other 0) .fnil, names, hmt))
  | (f :: rest, names, hmt) =>
    let fv : SPFrame × List String × Bool :=
      if f.next_child = 0 then
        let hmt1 := hmt || isMT f.node.step
        let pa : PTree × Option String :=
          if s.optimize_projection then
            pr.optimizeUseAggregateProjections f.node s.optimize_use_implicit_projections
          else (f.node, none)
        let names1 := match pa.2 with
          | some n => insertName names n
          | none => names
        let t2 := if s.aggregation_in_order then pr.optimizeAggregationInOrder pa.1 else pa.1
        ({ f with node := t2 }, names1, hmt1)
      else (f, names, hmt)
    match fv with
    | (f', names1, hmt1) =>
      if f'.next_child < f'.node.children.length then
        .cont (⟨f'.node.children.getD f'.next_child, 0⟩ ::
               { f' with next_child := f'.next_child + 1 } :: rest, names1, hmt1)
      else
        if s.optimize_projection then
          match pr.optimizeUseNormalProjections (f' :: rest) with
          | some (stack', nm) =>
            let names2 := insertName names1 nm
            if s.max_optimizations_to_apply ≠ 0 ∧
                s.max_optimizations_to_apply < names2.length ∧
                s.is_explain = false then
              .done (.error .tooManyProjections)
            else
              .cont (decTop stack', names2, hmt1)
          | none =>
            (match rest with
             | [] => .done (.ok (f'.node, names1, hmt1))
             | p :: rs => .cont (spWriteChild p f'.node :: rs, names1, hmt1))
        else
          (match rest with
           | [] => .done (.ok (f'.node, names1, hmt1))
           | p :: rs => .cont (spWriteChild p f'.node :: rs, names1, hmt1))

def phaseE (fuel : Nat) (pr : SPParams) (s : SPSettings) (t : PTree) :
    Option (Except SPError (PTree × List String × Bool)) :=
  runLoop (phaseEStep pr s) fuel ([⟨t, 0⟩], [], false)

/-- Push/pop part of the phase-6 loop. -/
def spAdvanceF (stack : List SPFrame) (atts : List (List Nat)) :
    LoopRes (List SPFrame × List (List Nat)) (PTree × Bool × List (List Nat)) :=
  match stack with
  | [] => .done (.node (.other 0) .fnil, false, atts)
  | f :: rest =>
    if f.next_child < f.node.children.length then
      .cont (⟨f.node.children.getD f.next_child, 0⟩ ::
             { f with next_child := f.next_child + 1 } :: rest, atts)
    else
      match rest with
      | [] => .done (f.node, false, atts)
      | p :: rs => .cont (spWriteChild p f.node :: rs, atts)

/-- Phase 6 loop (source lines 290–315): on each node's first visit try
the lazy-materialization rewrite of the whole tree; on the first success
the loop breaks immediately.  `atts` is ghost instrumentation recording
the path of every attempt. -/
def phaseFStep (pr : SPParams) (s : SPSettings) :
    List SPFrame × List (List Nat) →
      LoopRes (List SPFrame × List (List Nat)) (PTree × Bool × List (List Nat)) :=
  fun st0 =>
  match st0 with
  | ([], atts) => .done (.node (.other 0) .fnil, false, atts)
  | (f :: rest, atts) =>
    if f.next_child = 0 then
      match pr.optimizeLazyMaterialization (spCollapse (f :: rest)) (f :: rest)
          s.max_limit_for_lazy_materialization with
      | some t' => .done (t', true, atts ++ [spPath (f :: rest)])
      | none => spAdvanceF (f :: rest) (atts ++ [spPath (f :: rest)])
    else
      spAdvanceF (f :: rest) atts

def phaseF (fuel : Nat) (pr : SPParams) (s : SPSettings) (t : PTree) :
    Option (PTree × Bool × List (List Nat)) :=
  runLoop (phaseFStep pr s) fuel ([⟨t, 0⟩], [])

/-- The final forced-projection checks (source lines 317–326), raised in
any mode. -/
def forcedProjectionError (s : SPSettings) (has_mt : Bool) (names : List String) :
    Option SPError :=
  if s.force_use_projection && has_mt && names.isEmpty then
    some .projectionNotUsed
  else if (!(s.force_projection_name == "")) && has_mt &&
      (!(names.contains s.force_projection_name)) then
    some .incorrectData
  else
    none

/-- Everything the second pass produces, with ghost fields recording what
happened for the temporal claims. -/
structure SPResult where
  tree : PTree
  applied_projection_names : List String
  has_reading_from_mt : Bool
  read_from_local_parallel_replica_plan : Bool
  ranRedundantSortRemoval : Bool
  lazyApplied : Bool
  lazyAttempts : List (List Nat)

/-- `optimizeTreeSecondPass`: the ordered composition of the phase loops,
the flag-guarded redundant-sort removal, the forced-projection checks and
the trailing `applyOrder` / join-by-shards steps. -/
def optimizeTreeSecondPass (fuel : Nat) (pr : SPParams) (s : SPSettings) (t : PTree) :
    Option (Except SPError SPResult) :=
  (phaseA fuel pr s t).bind (fun t1 =>
    (phaseC fuel pr s (pr.calculateHashTableCacheKeys t1)).bind (fun t3 =>
      (phaseD fuel pr s t3).bind (fun dres =>
        let ranSort := dres.2 && s.remove_redundant_sorting
        let t5 := if ranSort then pr.tryRemoveRedundantSorting dres.1 else dres.1
        (phaseE fuel pr s t5).bind (fun eres =>
          match eres with
          | .error e => some (.error e)
          | .ok (t6, names, hmt) =>
            (if s.optimize_lazy_materialization then phaseF fuel pr s t6
             else some (t6, false, [])).bind (fun fres =>
              match forcedProjectionError s hmt names with
              | some e => some (.error e)
              | none =>
                let t8 := pr.applyOrder fres.1
                let t9 := if s.query_plan_join_shard_by_pk_ranges
                          then pr.optimizeJoinByShards t8 else t8
                some (.ok ⟨t9, names, hmt, dres.2, ranSort, fres.2.1, fres.2.2⟩))))))

/-- Identity instantiation of the abstract helpers, used by concrete
scenario runs: every rewrite leaves its tree unchanged and no projection
or lazy-materialization rewrite ever applies. -/
def idParams : SPParams where
  optimizePrimaryKeyConditionAndLimit := id
  updateQueryConditionCache := id
  optimizePrewhere := id
  calculateHashTableCacheKeys := id
  optimizeJoinLogical := fun t => (t, 0)
  convertLogicalJoinToPhysical := fun t _ => (t, false)
  optimizeJoinLegacy := id
  optimizeReadInOrder := id
  optimizeDistinctInOrder := id
  extractQueryPlan := fun _ => .node (.other 0) .fnil
  optimizePlan := id
  tryMergeExpressions := id
  tryRemoveRedundantSorting := id
  optimizeUseAggregateProjections := fun t _ => (t, none)
  optimizeAggregationInOrder := id
  optimizeUseNormalProjections := fun _ => none
  optimizeLazyMaterialization := fun _ _ _ => none
  applyOrder := id
  optimizeJoinByShards := id

theorem forcedProjectionError_notUsed (s : SPSettings) (names : List String)
    (hforce : s.force_use_projection = true) (hnm : names = []) :
    forcedProjectionError s true names = some .projectionNotUsed := by
  subst hnm
  simp [forcedProjectionError, hforce]

theorem forcedProjectionError_named (s : SPSettings) (names : List String)
    (h1 : ¬ (s.force_use_projection = true ∧ names = []))
    (h2 : s.force_projection_name ≠ "")
    (h3 : names.contains s.force_projection_name = false) :
    forcedProjectionError s true names = some .incorrectData := by
  unfold forcedProjectionError
  rw [if_neg ?hc1, if_pos ?hc2]
  case hc1 =>
    intro hcond
    simp only [Bool.and_eq_true, List.isEmpty_iff] at hcond
    exact h1 ⟨hcond.1.1, hcond.2⟩
  case hc2 =>
    have hb1 : (s.force_projection_name == "") = false := beq_eq_false_iff_ne.mpr h2
    show ((!(s.force_projection_name == "")) && true &&
      (!(names.contains s.force_projection_name))) = true
    rw [hb1, h3]
    rfl

/-- C4: at the end of the second pass — all phase loops having completed —
if a merge-tree scan was seen, no projection name was recorded and
force-use-projection is set, the pass raises the fatal projection-not-used
error; if additionally that first check does not fire, a nonempty forced
projection name not among the applied names raises the fatal
incorrect-data error; and the final checks read nothing from the explain
flag, so both errors fire regardless of dry-run/explain mode. -/
theorem C4_forced_projection_checks (fuel : Nat) (pr : SPParams) (s : SPSettings)
    (t t1 t3 : PTree) (dres : PTree × Bool)
    (t6 : PTree) (names : List String) (hmt : Bool)
    (fres : PTree × Bool × List (List Nat))
    (hA : phaseA fuel pr s t = some t1)
    (hC : phaseC fuel pr s (pr.calculateHashTableCacheKeys t1) = some t3)
    (hD : phaseD fuel pr s t3 = some dres)
    (hE : phaseE fuel pr s
        (if dres.2 && s.remove_redundant_sorting
         then pr.tryRemoveRedundantSorting dres.1 else dres.1) =
      some (.ok (t6, names, hmt)))
    (hF : (if s.optimize_lazy_materialization then phaseF fuel pr s t6
           else some (t6, false, [])) = some fres) :
    (s.force_use_projection = true → hmt = true → names = [] →
      optimizeTreeSecondPass fuel pr s t = some (.error .projectionNotUsed)) ∧
    (¬ (s.force_use_projection = true ∧ names = []) →
      hmt = true → s.force_projection_name ≠ "" →
      names.contains s.force_projection_name = false →
      optimizeTreeSecondPass fuel pr s t = some (.error .incorrectData)) ∧
    (∀ (b : Bool) (h : Bool) (n : List String),
      forcedProjectionError { s with is_explain := b } h n =
        forcedProjectionError s h n) := by
  have hunf : optimizeTreeSecondPass fuel pr s t =
      (match forcedProjectionError s hmt names with
       | some e => some (.error e)
       | none =>
         some (.ok ⟨(if s.query_plan_join_shard_by_pk_ranges
                     then pr.optimizeJoinByShards (pr.applyOrder fres.1)
                     else pr.applyOrder fres.1),
                    names, hmt, dres.2, dres.2 && s.remove_redundant_sorting,
                    fres.2.1, fres.2.2⟩)) := by
    unfold optimizeTreeSecondPass
    rw [hA]
    simp only [Option.some_bind]
    rw [hC]
    simp only [Option.some_bind]
    rw [hD]
    simp only [Option.some_bind]
    rw [hE]
    simp only [Option.some_bind]
    rw [hF]
    simp only [Option.some_bind]
  refine ⟨?_, ?_, fun b h n => rfl⟩
  · intro hforce hhmt hnm
    subst hhmt
    rw [hunf, forcedProjectionError_notUsed s names hforce hnm]
  · intro h1 hhmt h2 h3
    subst hhmt
    rw [hunf, forcedProjectionError_named s names h1 h2 h3]

/-- Witness for C4: a single merge-tree-scan node with all rewrites inert.
With force-use-projection set (in explain mode) the pass errors with
projection-not-used; with a forced name `"p"` instead it errors with
incorrect-data. -/
theorem C4_forced_projection_checks_witness :
    optimizeTreeSecondPass 2 idParams
        ⟨0, true, false, false, false, false, false, false, false, false,
         false, 0, true, "", false⟩
        (.node (.readFromMergeTree 0) .fnil)
      = some (.error .projectionNotUsed) ∧
    optimizeTreeSecondPass 2 idParams
        ⟨0, true, false, false, false, false, false, false, false, false,
         false, 0, false, "p", false⟩
        (.node (.readFromMergeTree 0) .fnil)
      = some (.error .incorrectData) := by
  constructor
  · exact (C4_forced_projection_checks 2 idParams
      ⟨0, true, false, false, false, false, false, false, false, false,
       false, 0, true, "", false⟩
      (.node (.readFromMergeTree 0) .fnil)
      (.node (.readFromMergeTree 0) .fnil)
      (.node (.readFromMergeTree 0) .fnil)
      (.node (.readFromMergeTree 0) .fnil, false)
      (.node (.readFromMergeTree 0) .fnil) [] true
      (.node (.readFromMergeTree 0) .fnil, false, [])
      rfl rfl rfl rfl rfl).1 rfl rfl rfl
  · exact (C4_forced_projection_checks 2 idParams
      ⟨0, true, false, false, false, false, false, false, false, false,
       false, 0, false, "p", false⟩
      (.node (.readFromMergeTree 0) .fnil)
      (.node (.readFromMergeTree 0) .fnil)
      (.node (.readFromMergeTree 0) .fnil)
      (.node (.readFromMergeTree 0) .fnil, false)
      (.node (.readFromMergeTree 0) .fnil) [] true
      (.node (.readFromMergeTree 0) .fnil, false, [])
      rfl rfl rfl rfl rfl).2.1 (by simp) rfl (by decide) rfl

theorem runLoop_mono {σ ρ : Type} (f : σ → LoopRes σ ρ) :
    ∀ (n m : Nat) (st : σ) (r : ρ), n ≤ m →
      runLoop f n st = some r → runLoop f m st = some r := by
  intro n
  induction n with
  | zero => intro m st r _ h; cases h
  | succ k ih =>
    intro m st r hle h
    match m, hle with
    | m + 1, hle =>
      rw [runLoop] at h ⊢
      match hstep : f st with
      | .cont st' =>
        rw [hstep] at h
        exact ih m st' r (by omega) h
      | .done r0 =>
        rw [hstep] at h
        exact h

/-- The forest with children at positions `≥ i` replaced by their
phase-4-processed versions. -/
def dProcF (pr : SPParams) (s : SPSettings) : PForest → Nat → PForest
  | .fnil, _ => .fnil
  | .fcons a as, 0 => .fcons (phaseDNodeT pr s a).1 (dProcF pr s as 0)
  | .fcons a as, i + 1 => .fcons a (dProcF pr s as i)

/-- Whether any child at position `≥ i` contains a local-replica read. -/
def dFlagF (pr : SPParams) (s : SPSettings) : PForest → Nat → Bool
  | .fnil, _ => false
  | .fcons a as, 0 => (phaseDNodeT pr s a).2 || dFlagF pr s as 0
  | .fcons _ as, i + 1 => dFlagF pr s as i

theorem set_length : ∀ (cs : PForest) (i : Nat) (t : PTree),
    (cs.set i t).length = cs.length
  | .fnil, _, _ => rfl
  | .fcons a as, 0, t => rfl
  | .fcons a as, n + 1, t => by
    show (as.set n t).length + 1 = as.length + 1
    rw [set_length as n t]

theorem dProcF_length (pr : SPParams) (s : SPSettings) :
    ∀ (cs : PForest) (i : Nat), (dProcF pr s cs i).length = cs.length
  | .fnil, _ => rfl
  | .fcons a as, 0 => by
    show (dProcF pr s as 0).length + 1 = as.length + 1
    rw [dProcF_length pr s as 0]
  | .fcons a as, i + 1 => by
    show (dProcF pr s as i).length + 1 = as.length + 1
    rw [dProcF_length pr s as i]

theorem dProcF_ge (pr : SPParams) (s : SPSettings) :
    ∀ (cs : PForest) (i : Nat), cs.length ≤ i →
      dProcF pr s cs i = cs ∧ dFlagF pr s cs i = false
  | .fnil, i => fun _ => ⟨rfl, rfl⟩
  | .fcons a as, 0 => by
    intro h
    exfalso
    simp [PForest.length] at h
  | .fcons a as, i + 1 => by
    intro h
    have hlen : as.length ≤ i := by
      simp [PForest.length] at h
      omega
    obtain ⟨h1, h2⟩ := dProcF_ge pr s as i hlen
    constructor
    · show PForest.fcons a (dProcF pr s as i) = PForest.fcons a as
      rw [h1]
    · exact h2

theorem dProcF_set_step (pr : SPParams) (s : SPSettings) :
    ∀ (cs : PForest) (i : Nat), i < cs.length →
      dProcF pr s (cs.set i (phaseDNodeT pr s (cs.getD i)).1) (i + 1) = dProcF pr s cs i
  | .fnil, i => by intro h; simp [PForest.length] at h
  | .fcons a as, 0 => by
    intro h
    rfl
  | .fcons a as, i + 1 => by
    intro h
    have hn : i < as.length := by
      simp [PForest.length] at h
      omega
    show PForest.fcons a
        (dProcF pr s (as.set i (phaseDNodeT pr s (as.getD i)).1) (i + 1)) =
      PForest.fcons a (dProcF pr s as i)
    rw [dProcF_set_step pr s as i hn]

theorem dFlagF_set_step (pr : SPParams) (s : SPSettings) :
    ∀ (cs : PForest) (i : Nat) (r : PTree), i < cs.length →
      ((phaseDNodeT pr s (cs.getD i)).2 || dFlagF pr s (cs.set i r) (i + 1)) =
        dFlagF pr s cs i
  | .fnil, i, r => by intro h; simp [PForest.length] at h
  | .fcons a as, 0, r => by
    intro h
    rfl
  | .fcons a as, i + 1, r => by
    intro h
    have hn : i < as.length := by
      simp [PForest.length] at h
      omega
    show ((phaseDNodeT pr s (as.getD i)).2 || dFlagF pr s (as.set i r) (i + 1)) =
      dFlagF pr s as i
    exact dFlagF_set_step pr s as i r hn

theorem dProcF_zero (pr : SPParams) (s : SPSettings) :
    ∀ (cs : PForest),
      dProcF pr s cs 0 = (phaseDNodeF pr s cs).1 ∧
      dFlagF pr s cs 0 = (phaseDNodeF pr s cs).2
  | .fnil => ⟨rfl, rfl⟩
  | .fcons a as => by
    obtain ⟨h1, h2⟩ := dProcF_zero pr s as
    constructor
    · show PForest.fcons (phaseDNodeT pr s a).1 (dProcF pr s as 0) = _
      rw [h1]
      rfl
    · show ((phaseDNodeT pr s a).2 || dFlagF pr s as 0) = _
      rw [h2]
      rfl

mutual
/-- The phase-4 loop on a non-root frame: processes the subtree in
`itersT t` iterations, writes the spliced result back into the parent and
accumulates the local-replica flag. -/
theorem phaseD_tree_run (pr : SPParams) (s : SPSettings) :
    ∀ (t : PTree) (p : SPFrame) (rs : List SPFrame) (found : Bool) (k : Nat),
      runLoop (phaseDStep pr s) (itersT t + k) (⟨t, 0⟩ :: p :: rs, found) =
        runLoop (phaseDStep pr s) k
          (spWriteChild p (phaseDNodeT pr s t).1 :: rs,
           found || (phaseDNodeT pr s t).2)
  | .node st cs, p, rs, found, k => by
    have hfuel : itersT (.node st cs) + k = itersF cs + (k + 1) := by
      simp [itersT]; omega
    rw [hfuel]
    rw [phaseD_forest_run pr s cs st cs 0 (p :: rs) found (k + 1) (drop_zero cs)
      (Nat.zero_le _)]
    have hstep : phaseDStep pr s
        (⟨.node st (dProcF pr s cs 0), cs.length⟩ :: p :: rs,
         found || dFlagF pr s cs 0) =
        .cont (spWriteChild p (phaseDNodeT pr s (.node st cs)).1 :: rs,
          found || (phaseDNodeT pr s (.node st cs)).2) := by
      simp only [phaseDStep]
      rw [if_neg ?hguard]
      case hguard =>
        intro hx
        rw [show (⟨.node st (dProcF pr s cs 0), cs.length⟩ : SPFrame).node.children =
            dProcF pr s cs 0 from rfl] at hx
        rw [dProcF_length pr s cs 0] at hx
        exact absurd hx (by simp)
      obtain ⟨hz1, hz2⟩ := dProcF_zero pr s cs
      cases st with
      | readFromLocalReplica id =>
        show LoopRes.cont (spWriteChild p _ :: rs, true) = _
        have : (phaseDNodeT pr s (.node (.readFromLocalReplica id) cs)).1 =
            (if s.merge_expressions
             then pr.tryMergeExpressions (pr.optimizePlan (pr.extractQueryPlan id))
             else pr.optimizePlan (pr.extractQueryPlan id)) := rfl
        rw [this]
        have h2 : (phaseDNodeT pr s (.node (.readFromLocalReplica id) cs)).2 = true := rfl
        rw [h2, Bool.or_true]
      | readFromMergeTree id =>
        show LoopRes.cont
          (spWriteChild p (.node (.readFromMergeTree id) (dProcF pr s cs 0)) :: rs,
           found || dFlagF pr s cs 0) = _
        rw [hz1, hz2]
        rfl
      | other id =>
        show LoopRes.cont
          (spWriteChild p (.node (.other id) (dProcF pr s cs 0)) :: rs,
           found || dFlagF pr s cs 0) = _
        rw [hz1, hz2]
        rfl
    rw [runLoop_cont _ _ _ _ hstep]

/-- The phase-4 loop over the remaining children `i, i+1, …` of the top
frame. -/
theorem phaseD_forest_run (pr : SPParams) (s : SPSettings) :
    ∀ (rem : PForest) (st : PStep) (cs : PForest) (i : Nat) (rest : List SPFrame)
      (found : Bool) (k : Nat),
      cs.drop i = rem → i ≤ cs.length →
      runLoop (phaseDStep pr s) (itersF rem + k) (⟨.node st cs, i⟩ :: rest, found) =
        runLoop (phaseDStep pr s) k
          (⟨.node st (dProcF pr s cs i), cs.length⟩ :: rest,
           found || dFlagF pr s cs i)
  | .fnil, st, cs, i, rest, found, k => by
    intro hdrop hle
    have hlen : i = cs.length :=
      (Nat.le_antisymm (drop_fnil_length cs i hdrop) hle).symm
    obtain ⟨hp1, hp2⟩ := dProcF_ge pr s cs i (by omega)
    rw [hp1, hp2, hlen]
    simp [itersF]
  | .fcons c ts, st, cs, i, rest, found, k => by
    intro hdrop hle
    obtain ⟨hget, hlt, hset, hdrop'⟩ := drop_fcons cs i c ts hdrop
    have hfuel : itersF (.fcons c ts) + k = (itersT c + (itersF ts + k)) + 1 := by
      simp [itersF]; omega
    rw [hfuel]
    have hstep : phaseDStep pr s (⟨.node st cs, i⟩ :: rest, found) =
        .cont (⟨c, 0⟩ :: ⟨.node st cs, i + 1⟩ :: rest, found) := by
      simp only [phaseDStep]
      rw [if_pos (by simpa using hlt)]
      rw [show (⟨.node st cs, i⟩ : SPFrame).node.children.getD
          (⟨.node st cs, i⟩ : SPFrame).next_child = cs.getD i from rfl]
      rw [hget]
    rw [runLoop_cont _ _ _ _ hstep]
    rw [phaseD_tree_run pr s c ⟨.node st cs, i + 1⟩ rest found (itersF ts + k)]
    have hwc : spWriteChild ⟨.node st cs, i + 1⟩ (phaseDNodeT pr s c).1 =
        ⟨.node st (cs.set i (phaseDNodeT pr s c).1), i + 1⟩ := by
      simp [spWriteChild]
    rw [hwc]
    have hdrop2 : (cs.set i (phaseDNodeT pr s c).1).drop (i + 1) = ts := by
      rw [drop_set_of_lt _ _ _ _ (by omega)]
      exact hdrop'
    have hlen2 : i + 1 ≤ (cs.set i (phaseDNodeT pr s c).1).length := by
      rw [set_length]
      omega
    rw [phaseD_forest_run pr s ts st (cs.set i (phaseDNodeT pr s c).1) (i + 1) rest
      (found || (phaseDNodeT pr s c).2) k hdrop2 hlen2]
    have e1 := dProcF_set_step pr s cs i hlt
    have e2 := dFlagF_set_step pr s cs i (phaseDNodeT pr s (cs.getD i)).1 hlt
    rw [hget] at e1 e2
    rw [e1, set_length cs i (phaseDNodeT pr s c).1, Bool.or_assoc, e2]

end

/-- The phase-4 loop from the root. -/
theorem phaseD_run (pr : SPParams) (s : SPSettings) (t : PTree) :
    phaseD (itersT t) pr s t =
      some ((phaseDNodeT pr s t).1, (phaseDNodeT pr s t).2) := by
  cases t with
  | node st cs =>
    unfold phaseD
    have hfuel : itersT (.node st cs) = itersF cs + (0 + 1) := by
      simp [itersT]
    rw [hfuel]
    rw [phaseD_forest_run pr s cs st cs 0 [] false (0 + 1) (drop_zero cs)
      (Nat.zero_le _)]
    refine runLoop_done _ _ _ _ ?_
    simp only [phaseDStep]
    rw [if_neg ?hguard]
    case hguard =>
      intro hx
      rw [show (⟨.node st (dProcF pr s cs 0), cs.length⟩ : SPFrame).node.children =
          dProcF pr s cs 0 from rfl] at hx
      rw [dProcF_length pr s cs 0] at hx
      exact absurd hx (by simp)
    obtain ⟨hz1, hz2⟩ := dProcF_zero pr s cs
    cases st with
    | readFromLocalReplica id =>
      show LoopRes.done (_, true) = _
      have h2 : (phaseDNodeT pr s (.node (.readFromLocalReplica id) cs)).2 = true := rfl
      rw [h2]
      rfl
    | readFromMergeTree id =>
      show LoopRes.done (PTree.node (PStep.readFromMergeTree id) (dProcF pr s cs 0),
          false || dFlagF pr s cs 0) =
        LoopRes.done ((phaseDNodeT pr s (.node (.readFromMergeTree id) cs)).1,
          (phaseDNodeT pr s (.node (.readFromMergeTree id) cs)).2)
      rw [hz1, hz2]
      rfl
    | other id =>
      show LoopRes.done (PTree.node (PStep.other id) (dProcF pr s cs 0),
          false || dFlagF pr s cs 0) =
        LoopRes.done ((phaseDNodeT pr s (.node (.other id) cs)).1,
          (phaseDNodeT pr s (.node (.other id) cs)).2)
      rw [hz1, hz2]
      rfl

mutual
/-- The phase-4 local-replica flag is exactly tree membership of a
local-replica read step. -/
theorem phaseDNode_flagT (pr : SPParams) (s : SPSettings) :
    ∀ t : PTree, (phaseDNodeT pr s t).2 = containsLRT t
  | .node st cs => by
    cases st with
    | readFromLocalReplica id =>
      show true = (isLR (.readFromLocalReplica id) || containsLRF cs)
      rfl
    | readFromMergeTree id =>
      show (phaseDNodeF pr s cs).2 = (isLR (.readFromMergeTree id) || containsLRF cs)
      rw [phaseDNode_flagF pr s cs]
      rfl
    | other id =>
      show (phaseDNodeF pr s cs).2 = (isLR (.other id) || containsLRF cs)
      rw [phaseDNode_flagF pr s cs]
      rfl

theorem phaseDNode_flagF (pr : SPParams) (s : SPSettings) :
    ∀ cs : PForest, (phaseDNodeF pr s cs).2 = containsLRF cs
  | .fnil => rfl
  | .fcons a as => by
    show ((phaseDNodeT pr s a).2 || (phaseDNodeF pr s as).2) =
      (containsLRT a || containsLRF as)
    rw [phaseDNode_flagT pr s a, phaseDNode_flagF pr s as]
end

/-- C9: the extra redundant-sort-removal pass after the local-replica
phase runs exactly when a local-replica read node was found (and spliced —
the phase's result tree is the recursive splice of the tree it was given)
and the redundant-sort-removal setting is enabled.  The found flag is
precisely "the tree entering the phase contains a local-replica read
step". -/
theorem C9_redundant_sort_removal_iff (fuel : Nat) (pr : SPParams) (s : SPSettings)
    (t t1 t3 : PTree) (dres : PTree × Bool)
    (hA : phaseA fuel pr s t = some t1)
    (hC : phaseC fuel pr s (pr.calculateHashTableCacheKeys t1) = some t3)
    (hD : phaseD fuel pr s t3 = some dres) :
    dres.2 = containsLRT t3 ∧
    dres.1 = (phaseDNodeT pr s t3).1 ∧
    (∀ res : SPResult, optimizeTreeSecondPass fuel pr s t = some (.ok res) →
      res.ranRedundantSortRemoval = (containsLRT t3 && s.remove_redundant_sorting) ∧
      res.read_from_local_parallel_replica_plan = containsLRT t3) := by
  have hD' : runLoop (phaseDStep pr s) fuel ([⟨t3, 0⟩], false) = some dres := hD
  have hchar : dres = ((phaseDNodeT pr s t3).1, (phaseDNodeT pr s t3).2) := by
    have h1 := runLoop_mono (phaseDStep pr s) fuel (Nat.max fuel (itersT t3))
      ([⟨t3, 0⟩], false) dres (Nat.le_max_left _ _) hD'
    have h2 := runLoop_mono (phaseDStep pr s) (itersT t3) (Nat.max fuel (itersT t3))
      ([⟨t3, 0⟩], false) ((phaseDNodeT pr s t3).1, (phaseDNodeT pr s t3).2)
      (Nat.le_max_right _ _) (phaseD_run pr s t3)
    rw [h1] at h2
    exact (Option.some.injEq _ _).mp h2
  have hflag : dres.2 = containsLRT t3 := by
    rw [hchar]
    exact phaseDNode_flagT pr s t3
  refine ⟨hflag, by rw [hchar], ?_⟩
  intro res hres
  unfold optimizeTreeSecondPass at hres
  rw [hA] at hres
  simp only [Option.some_bind] at hres
  rw [hC] at hres
  simp only [Option.some_bind] at hres
  rw [hD] at hres
  simp only [Option.some_bind] at hres
  match hE : phaseE fuel pr s
      (if dres.2 && s.remove_redundant_sorting
       then pr.tryRemoveRedundantSorting dres.1 else dres.1) with
  | none =>
    rw [hE] at hres
    simp only [Option.none_bind] at hres
    cases hres
  | some (Except.error e) =>
    rw [hE] at hres
    simp only [Option.some_bind] at hres
    cases hres
  | some (Except.ok etuple) =>
    obtain ⟨t6, names, hmt⟩ := etuple
    rw [hE] at hres
    simp only [Option.some_bind] at hres
    match hF : (if s.optimize_lazy_materialization then phaseF fuel pr s t6
                else some (t6, false, [])) with
    | none =>
      rw [hF] at hres
      simp only [Option.none_bind] at hres
      cases hres
    | some fres =>
      rw [hF] at hres
      simp only [Option.some_bind] at hres
      match hP : forcedProjectionError s hmt names with
      | some e =>
        rw [hP] at hres
        cases hres
      | none =>
        rw [hP] at hres
        simp only [Option.some.injEq, Except.ok.injEq] at hres
        subst hres
        exact ⟨by rw [hflag], by rw [hflag]⟩

/-- Witness for C9: a root over one local-replica leaf with inert
helpers; the phase finds and splices it (extracted plan `other 0`), and
the composed pass records that the redundant-sort removal ran. -/
theorem C9_redundant_sort_removal_iff_witness :
    (true = containsLRT (.node (.other 5)
        (.fcons (.node (.readFromLocalReplica 7) .fnil) .fnil))) ∧
    (SPResult.ranRedundantSortRemoval
        ⟨.node (.other 5) (.fcons (.node (.other 0) .fnil) .fnil),
         [], false, true, true, false, []⟩ =
      (containsLRT (.node (.other 5)
          (.fcons (.node (.readFromLocalReplica 7) .fnil) .fnil)) && true)) := by
  have h := C9_redundant_sort_removal_iff 3 idParams
    ⟨0, false, false, false, false, false, true, false, false, false,
     false, 0, false, "", false⟩
    (.node (.other 5) (.fcons (.node (.readFromLocalReplica 7) .fnil) .fnil))
    (.node (.other 5) (.fcons (.node (.readFromLocalReplica 7) .fnil) .fnil))
    (.node (.other 5) (.fcons (.node (.readFromLocalReplica 7) .fnil) .fnil))
    (.node (.other 5) (.fcons (.node (.other 0) .fnil) .fnil), true)
    rfl rfl rfl
  exact ⟨h.1,
    (h.2.2 ⟨.node (.other 5) (.fcons (.node (.other 0) .fnil) .fnil),
      [], false, true, true, false, []⟩ rfl).1⟩

mutual
/-- The paths of all nodes of a subtree at `base`, in pre order (a node
before its children). -/
def preorderPathsT (base : List Nat) : PTree → List (List Nat)
  | .node _ cs => base :: preorderPathsF base 0 cs

def preorderPathsF (base : List Nat) (i : Nat) : PForest → List (List Nat)
  | .fnil => []
  | .fcons t ts => preorderPathsT (base ++ [i]) t ++ preorderPathsF base (i + 1) ts
end

def spBase (rest : List SPFrame) : List Nat :=
  rest.reverse.map (fun f => f.next_child - 1)

theorem drop_one_fcons (c : PTree) (ts : PForest) :
    (PForest.fcons c ts).drop 1 = ts := by
  show ts.drop 0 = ts
  exact drop_zero ts

theorem spPath_eq (f : SPFrame) (rest : List SPFrame) :
    spPath (f :: rest) = spBase rest := rfl

theorem spCollapse_single (f : SPFrame) : spCollapse [f] = f.node := by
  rw [spCollapse]

theorem spBase_cons (p : SPFrame) (rest : List SPFrame) :
    spBase (p :: rest) = spBase rest ++ [p.next_child - 1] := by
  simp [spBase]

mutual
/-- The phase-6 loop on a non-root frame when the lazy rewrite never
fires: a plain pre-order walk recording one attempt per node and leaving
the tree unchanged. -/
theorem phaseF_tree_run (pr : SPParams) (s : SPSettings)
    (hnone : ∀ r st l, pr.optimizeLazyMaterialization r st l = none) :
    ∀ (t : PTree) (p : SPFrame) (rs : List SPFrame) (atts : List (List Nat)) (k : Nat),
      runLoop (phaseFStep pr s) (itersT t + k) (⟨t, 0⟩ :: p :: rs, atts) =
        runLoop (phaseFStep pr s) k
          (spWriteChild p t :: rs, atts ++ preorderPathsT (spBase (p :: rs)) t)
  | .node st cs, p, rs, atts, k => by
    have hstep1 : phaseFStep pr s (⟨.node st cs, 0⟩ :: p :: rs, atts) =
        spAdvanceF (⟨.node st cs, 0⟩ :: p :: rs) (atts ++ [spBase (p :: rs)]) := by
      simp only [phaseFStep]
      rw [if_pos trivial, hnone]
      rfl
    cases cs with
    | fnil =>
      have hfuel : itersT (.node st .fnil) + k = k + 1 := by
        simp only [itersT, itersF]
        omega
      rw [hfuel]
      have hstep : phaseFStep pr s (⟨.node st .fnil, 0⟩ :: p :: rs, atts) =
          .cont (spWriteChild p (.node st .fnil) :: rs, atts ++ [spBase (p :: rs)]) := by
        rw [hstep1]
        simp only [spAdvanceF]
        rw [if_neg (by simp [PForest.length])]
      rw [runLoop_cont _ _ _ _ hstep]
      rfl
    | fcons c ts =>
      have hfuel : itersT (.node st (.fcons c ts)) + k =
          (itersT c + (itersF ts + (k + 1))) + 1 := by
        simp [itersT, itersF]; omega
      rw [hfuel]
      have hstep : phaseFStep pr s (⟨.node st (.fcons c ts), 0⟩ :: p :: rs, atts) =
          .cont (⟨c, 0⟩ :: ⟨.node st (.fcons c ts), 1⟩ :: p :: rs,
            atts ++ [spBase (p :: rs)]) := by
        rw [hstep1]
        simp only [spAdvanceF]
        rw [if_pos (by simp [PForest.length])]
        rfl
      rw [runLoop_cont _ _ _ _ hstep]
      rw [phaseF_tree_run pr s hnone c ⟨.node st (.fcons c ts), 1⟩ (p :: rs)
        (atts ++ [spBase (p :: rs)]) (itersF ts + (k + 1))]
      have hwc : spWriteChild ⟨.node st (.fcons c ts), 1⟩ c =
          ⟨.node st (.fcons c ts), 1⟩ := by
        simp [spWriteChild, PForest.set]
      rw [hwc]
      have hbase : spBase (SPFrame.mk (.node st (.fcons c ts)) 1 :: p :: rs) =
          spBase (p :: rs) ++ [0] := by
        rw [spBase_cons]
        rfl
      rw [hbase]
      rw [phaseF_forest_run pr s hnone ts st (.fcons c ts) 1 (p :: rs)
        (atts ++ [spBase (p :: rs)] ++ preorderPathsT (spBase (p :: rs) ++ [0]) c)
        (k + 1) (drop_one_fcons c ts) (by omega) (by simp [PForest.length])]
      have hstep3 : phaseFStep pr s
          (⟨.node st (.fcons c ts), (PForest.fcons c ts).length⟩ :: p :: rs,
           atts ++ [spBase (p :: rs)] ++ preorderPathsT (spBase (p :: rs) ++ [0]) c ++
             preorderPathsF (spBase (p :: rs)) 1 ts) =
          .cont (spWriteChild p (.node st (.fcons c ts)) :: rs,
            atts ++ [spBase (p :: rs)] ++ preorderPathsT (spBase (p :: rs) ++ [0]) c ++
              preorderPathsF (spBase (p :: rs)) 1 ts) := by
        simp only [phaseFStep]
        rw [if_neg (by simp [PForest.length])]
        simp only [spAdvanceF]
        rw [if_neg (by simp)]
      rw [runLoop_cont _ _ _ _ hstep3]
      simp [preorderPathsT, preorderPathsF, List.append_assoc]

/-- The phase-6 loop over the remaining children `i ≥ 1` of the top frame
when the lazy rewrite never fires. -/
theorem phaseF_forest_run (pr : SPParams) (s : SPSettings)
    (hnone : ∀ r st l, pr.optimizeLazyMaterialization r st l = none) :
    ∀ (rem : PForest) (st : PStep) (cs : PForest) (i : Nat) (rest : List SPFrame)
      (atts : List (List Nat)) (k : Nat),
      cs.drop i = rem → 1 ≤ i → i ≤ cs.length →
      runLoop (phaseFStep pr s) (itersF rem + k) (⟨.node st cs, i⟩ :: rest, atts) =
        runLoop (phaseFStep pr s) k
          (⟨.node st cs, cs.length⟩ :: rest,
           atts ++ preorderPathsF (spBase rest) i rem)
  | .fnil, st, cs, i, rest, atts, k => by
    intro hdrop hi1 hile
    have hlen : i = cs.length :=
      (Nat.le_antisymm (drop_fnil_length cs i hdrop) hile).symm
    rw [hlen]
    simp [itersF, preorderPathsF]
  | .fcons c ts, st, cs, i, rest, atts, k => by
    intro hdrop hi1 hile
    obtain ⟨hget, hlt, hset, hdrop'⟩ := drop_fcons cs i c ts hdrop
    have hfuel : itersF (.fcons c ts) + k = (itersT c + (itersF ts + k)) + 1 := by
      simp [itersF]; omega
    rw [hfuel]
    have hstep : phaseFStep pr s (⟨.node st cs, i⟩ :: rest, atts) =
        .cont (⟨c, 0⟩ :: ⟨.node st cs, i + 1⟩ :: rest, atts) := by
      simp only [phaseFStep]
      rw [if_neg (by omega)]
      simp only [spAdvanceF]
      rw [if_pos (by simpa using hlt)]
      rw [show (⟨.node st cs, i⟩ : SPFrame).node.children.getD
          (⟨.node st cs, i⟩ : SPFrame).next_child = cs.getD i from rfl]
      rw [hget]
    rw [runLoop_cont _ _ _ _ hstep]
    rw [phaseF_tree_run pr s hnone c ⟨.node st cs, i + 1⟩ rest atts (itersF ts + k)]
    have hwc : spWriteChild ⟨.node st cs, i + 1⟩ c = ⟨.node st cs, i + 1⟩ := by
      simp only [spWriteChild, Nat.add_sub_cancel]
      rw [show (⟨.node st cs, i + 1⟩ : SPFrame).node.children = cs from rfl]
      rw [← hget, set_getD_self cs i hlt]
      rfl
    rw [hwc]
    have hbase : spBase (SPFrame.mk (.node st cs) (i + 1) :: rest) =
        spBase rest ++ [i] := by
      rw [spBase_cons]
      rfl
    rw [hbase]
    rw [phaseF_forest_run pr s hnone ts st cs (i + 1) rest
      (atts ++ preorderPathsT (spBase rest ++ [i]) c) k hdrop' (by omega) hlt]
    simp [preorderPathsF, List.append_assoc]
end

/-- The phase-6 loop from the root when the lazy rewrite never fires:
every node attempted exactly once in pre order, tree unchanged, nothing
applied. -/
theorem phaseF_none_run (pr : SPParams) (s : SPSettings)
    (hnone : ∀ r st l, pr.optimizeLazyMaterialization r st l = none) (t : PTree) :
    phaseF (itersT t) pr s t = some (t, false, preorderPathsT [] t) := by
  cases t with
  | node st cs =>
    unfold phaseF
    have hstep1 : phaseFStep pr s ([⟨.node st cs, 0⟩], []) =
        spAdvanceF [⟨.node st cs, 0⟩] [[]] := by
      simp only [phaseFStep]
      rw [if_pos trivial, hnone]
      rfl
    cases cs with
    | fnil =>
      have hfuel : itersT (.node st .fnil) = 0 + 1 := by simp [itersT, itersF]
      rw [hfuel]
      refine runLoop_done _ _ _ _ ?_
      rw [hstep1]
      simp only [spAdvanceF]
      rw [if_neg (by simp [PForest.length])]
      rfl
    | fcons c ts =>
      have hfuel : itersT (.node st (.fcons c ts)) =
          (itersT c + (itersF ts + (0 + 1))) + 1 := by
        simp [itersT, itersF]; omega
      rw [hfuel]
      have hstep : phaseFStep pr s ([⟨.node st (.fcons c ts), 0⟩], []) =
          .cont ([⟨c, 0⟩, ⟨.node st (.fcons c ts), 1⟩], [[]]) := by
        rw [hstep1]
        simp only [spAdvanceF]
        rw [if_pos (by simp [PForest.length])]
        rfl
      rw [runLoop_cont _ _ _ _ hstep]
      rw [show ([⟨c, 0⟩, ⟨.node st (.fcons c ts), 1⟩] : List SPFrame) =
        ⟨c, 0⟩ :: ⟨.node st (.fcons c ts), 1⟩ :: [] from rfl]
      rw [phaseF_tree_run pr s hnone c ⟨.node st (.fcons c ts), 1⟩ []
        [[]] (itersF ts + (0 + 1))]
      have hwc : spWriteChild ⟨.node st (.fcons c ts), 1⟩ c =
          ⟨.node st (.fcons c ts), 1⟩ := by
        simp [spWriteChild, PForest.set]
      rw [hwc]
      have hbase : spBase [SPFrame.mk (.node st (.fcons c ts)) 1] = [0] := by
        simp [spBase]
      rw [show spBase (SPFrame.mk (.node st (.fcons c ts)) 1 :: ([] : List SPFrame)) =
        spBase ([] : List SPFrame) ++ [0] from by rw [spBase_cons]; rfl]
      rw [phaseF_forest_run pr s hnone ts st (.fcons c ts) 1 []
        ([[]] ++ preorderPathsT (spBase ([] : List SPFrame) ++ [0]) c)
        (0 + 1) (drop_one_fcons c ts) (by omega) (by simp [PForest.length])]
      refine runLoop_done _ _ _ _ ?_
      simp only [phaseFStep]
      rw [if_neg (by simp [PForest.length])]
      simp only [spAdvanceF]
      rw [if_neg (by simp)]
      simp [spBase, preorderPathsT, preorderPathsF, List.append_assoc]

/-- C8: the phase-6 lazy-materialization traversal (1) stops immediately
on the first successful application: if the rewrite succeeds at a
first-visit frame, the loop returns that tree at once, the attempt log
ending at that node and no further node being visited — so the rewrite is
applied at most once per pass; and (2) attempts the rewrite on each node's
first visit: if the rewrite never succeeds, the attempt log is exactly the
pre-order path list of the tree, which is returned unchanged. -/
theorem C8_lazy_materialization_once (pr : SPParams) (s : SPSettings) :
    (∀ (f : SPFrame) (rest : List SPFrame) (atts : List (List Nat))
       (t' : PTree) (n : Nat),
      f.next_child = 0 →
      pr.optimizeLazyMaterialization (spCollapse (f :: rest)) (f :: rest)
          s.max_limit_for_lazy_materialization = some t' →
      runLoop (phaseFStep pr s) (n + 1) (f :: rest, atts) =
        some (t', true, atts ++ [spPath (f :: rest)])) ∧
    ((∀ r st l, pr.optimizeLazyMaterialization r st l = none) →
      ∀ t : PTree, phaseF (itersT t) pr s t = some (t, false, preorderPathsT [] t)) := by
  constructor
  · intro f rest atts t' n h0 hsucc
    refine runLoop_done _ _ _ _ ?_
    simp only [phaseFStep]
    rw [if_pos h0, hsucc]
  · intro hnone t
    exact phaseF_none_run pr s hnone t

/-- Witness for C8: an always-succeeding rewrite stops the loop at the
root with one attempt; the never-succeeding rewrite walks a two-node tree
recording both pre-order attempts. -/
theorem C8_lazy_materialization_once_witness :
    (runLoop (phaseFStep
          { idParams with optimizeLazyMaterialization := fun r _ _ => some r }
          ⟨0, false, false, false, false, false, false, false, false, false,
           true, 9, false, "", false⟩) 1
        ([⟨.node (.other 3) .fnil, 0⟩], [])
      = some (.node (.other 3) .fnil, true, [[]])) ∧
    (phaseF (itersT (.node (.other 1) (.fcons (.node (.other 2) .fnil) .fnil)))
        idParams
        ⟨0, false, false, false, false, false, false, false, false, false,
         true, 9, false, "", false⟩
        (.node (.other 1) (.fcons (.node (.other 2) .fnil) .fnil))
      = some (.node (.other 1) (.fcons (.node (.other 2) .fnil) .fnil),
          false, [[], [0]])) := by
  constructor
  · exact (C8_lazy_materialization_once
      { idParams with optimizeLazyMaterialization := fun r _ _ => some r }
      ⟨0, false, false, false, false, false, false, false, false, false,
       true, 9, false, "", false⟩).1
      ⟨.node (.other 3) .fnil, 0⟩ [] [] (.node (.other 3) .fnil) 0 rfl
      (by rw [show spCollapse [(⟨.node (.other 3) .fnil, 0⟩ : SPFrame)] =
        (.node (.other 3) .fnil : PTree) from spCollapse_single _])
  · have h := (C8_lazy_materialization_once idParams
      ⟨0, false, false, false, false, false, false, false, false, false,
       true, 9, false, "", false⟩).2
      (fun _ _ _ => rfl)
      (.node (.other 1) (.fcons (.node (.other 2) .fnil) .fnil))
    simpa [preorderPathsT, preorderPathsF] using h

/-- Every value a fuelled loop returns was produced by the step function's
own `done` branch at some state. -/
theorem runLoop_result {σ ρ : Type} (f : σ → LoopRes σ ρ) :
    ∀ (n : Nat) (s : σ) (r : ρ), runLoop f n s = some r → ∃ s', f s' = .done r
  | 0, s, r, h => by simp [runLoop] at h
  | n + 1, s, r, h => by
    rw [runLoop] at h
    cases hf : f s with
    | cont s' =>
      rw [hf] at h
      exact runLoop_result f n s' r h
    | done r' =>
      rw [hf] at h
      exact ⟨s, by rw [hf, Option.some_inj.mp h]⟩

/-- Modelled from the spec: a test normal-projection rewrite that fires on
a top frame whose step id is 0, 1 or 2, bumping the id and reporting a
fresh projection name each time, and fails otherwise, so that three
distinct projection names get applied on a one-node plan. -/
def threeProjParams : SPParams :=
  { idParams with
    optimizeUseNormalProjections := fun st =>
      match st with
      | [] => none
      | f :: rest =>
        match f.node.step with
        | .other 0 => some ({ f with node := .node (.other 1) f.node.children } :: rest, "a")
        | .other 1 => some ({ f with node := .node (.other 2) f.node.children } :: rest, "b")
        | .other 2 => some ({ f with node := .node (.other 3) f.node.children } :: rest, "c")
        | _ => none }

/-- C5 (corrected): the phase-5 projection budget counts the distinct
applied projection names against `max_optimizations_to_apply`.  After a
successful normal-projection rewrite whose recorded name set exceeds a
nonzero limit, the loop raises the budget error in normal mode; in
dry-run/explain mode the check is skipped entirely: the very same
iteration records the name and continues on the rewritten stack — the
pass is NOT truncated — and an explain-mode phase-5 run can never return
an error. -/
theorem C5_projection_budget (pr : SPParams) (s : SPSettings) :
    (∀ (f : SPFrame) (rest : List SPFrame) (names : List String) (hmt : Bool)
       (stack' : List SPFrame) (nm : String),
      f.next_child ≠ 0 →
      ¬ f.next_child < f.node.children.length →
      s.optimize_projection = true →
      pr.optimizeUseNormalProjections (f :: rest) = some (stack', nm) →
      s.max_optimizations_to_apply ≠ 0 →
      s.max_optimizations_to_apply < (insertName names nm).length →
      (s.is_explain = false →
        phaseEStep pr s (f :: rest, names, hmt) =
          .done (.error .tooManyProjections)) ∧
      (s.is_explain = true →
        phaseEStep pr s (f :: rest, names, hmt) =
          .cont (decTop stack', insertName names nm, hmt))) ∧
    (s.is_explain = true →
      ∀ (fuel : Nat) (t : PTree) (e : SPError),
        phaseE fuel pr s t ≠ some (.error e)) := by
  constructor
  · intro f rest names hmt stack' nm h0 hlen hproj hnp hmax hgt
    have hred : phaseEStep pr s (f :: rest, names, hmt) =
        (if s.max_optimizations_to_apply ≠ 0 ∧
            s.max_optimizations_to_apply < (insertName names nm).length ∧
            s.is_explain = false then
          .done (.error .tooManyProjections)
        else .cont (decTop stack', insertName names nm, hmt)) := by
      simp only [phaseEStep]
      rw [if_neg h0]
      rw [if_neg hlen, hproj, if_pos rfl, hnp]
    constructor
    · intro hexp
      rw [hred, if_pos ⟨hmax, hgt, hexp⟩]
    · intro hexp
      rw [hred, if_neg (fun hc => by rw [hexp] at hc; exact Bool.noConfusion hc.2.2)]
  · intro hexp fuel t e h
    have hstep : ∀ st0, phaseEStep pr s st0 ≠ .done (.error e) := by
      intro st0 hs
      obtain ⟨stack, names, hmt⟩ := st0
      cases stack with
      | nil => simp [phaseEStep] at hs
      | cons f rest =>
        simp only [phaseEStep] at hs
        repeat' split at hs
        all_goals simp_all
    obtain ⟨st0, hdone⟩ := runLoop_result (phaseEStep pr s) fuel
      ([⟨t, 0⟩], [], false) (.error e) h
    exact hstep st0 hdone

/-- Closed counterexample to C5 as stated: with projection optimization
enabled, a limit of 1 and the three-name test rewrite, the explain-mode
phase-5 run on a one-node plan is NOT truncated — all three projection
names are applied and the fully rewritten plan is returned with no error —
while the same run in normal mode raises the budget error. -/
theorem C5_counterexample :
    (phaseE 4 threeProjParams
        ⟨1, true, false, false, false, false, false, true, false, false,
         false, 0, false, "", false⟩
        (.node (.other 0) .fnil)
      = some (.ok (.node (.other 3) .fnil, ["c", "b", "a"], false))) ∧
    (1 < (["c", "b", "a"] : List String).length) ∧
    (phaseE 4 threeProjParams
        ⟨1, false, false, false, false, false, false, true, false, false,
         false, 0, false, "", false⟩
        (.node (.other 0) .fnil)
      = some (.error .tooManyProjections)) := by
  refine ⟨rfl, by decide, rfl⟩

/-- Witness for C5: at a revisited childless frame of the one-node plan,
with limit 1 and one name already recorded, the second projection
application raises the budget error in normal mode and continues with
both names in explain mode; the explain-mode run never errors. -/
theorem C5_projection_budget_witness :
    (phaseEStep threeProjParams
        ⟨1, false, false, false, false, false, false, true, false, false,
         false, 0, false, "", false⟩
        ([⟨.node (.other 1) .fnil, 5⟩], ["a"], false)
      = .done (.error .tooManyProjections)) ∧
    (phaseEStep threeProjParams
        ⟨1, true, false, false, false, false, false, true, false, false,
         false, 0, false, "", false⟩
        ([⟨.node (.other 1) .fnil, 5⟩], ["a"], false)
      = .cont (decTop [⟨.node (.other 2) .fnil, 5⟩], insertName ["a"] "b", false)) ∧
    (phaseE 4 threeProjParams
        ⟨1, true, false, false, false, false, false, true, false, false,
         false, 0, false, "", false⟩
        (.node (.other 0) .fnil)
      ≠ some (.error .tooManyProjections)) := by
  refine ⟨?_, ?_, ?_⟩
  · exact ((C5_projection_budget threeProjParams
      ⟨1, false, false, false, false, false, false, true, false, false,
       false, 0, false, "", false⟩).1
      ⟨.node (.other 1) .fnil, 5⟩ [] ["a"] false
      [⟨.node (.other 2) .fnil, 5⟩] "b"
      (by decide) (by decide) rfl rfl (by decide) (by decide)).1 rfl
  · exact ((C5_projection_budget threeProjParams
      ⟨1, true, false, false, false, false, false, true, false, false,
       false, 0, false, "", false⟩).1
      ⟨.node (.other 1) .fnil, 5⟩ [] ["a"] false
      [⟨.node (.other 2) .fnil, 5⟩] "b"
      (by decide) (by decide) rfl rfl (by decide) (by decide)).2 rfl
  · exact (C5_projection_budget threeProjParams
      ⟨1, true, false, false, false, false, false, true, false, false,
       false, 0, false, "", false⟩).2 rfl 4 (.node (.other 0) .fnil)
      .tooManyProjections

end QPOpt
